import Mathlib

/-!
Verification of the crawl-orchestration core of the `scraper` repository.

The Python source is shallowly embedded: pure functions become Lean
functions on `String` / `List Char` / `ℚ`, stateful classes become records
with explicit state-passing, and the event-loop interleaving of the queue,
state manager and worker is modelled as a list of operations folded over
the combined state.  Wall-clock readings (`time.time()`) are passed in as
explicit rational `now` arguments.  Python `float` priorities are modelled
as exact rationals; every stated comparison has slack far larger than any
IEEE rounding of the `i * 0.1` increments involved, and the single
floating-point power `path_depth ** 1.5` is modelled by a nonnegative
dyadic square-root approximation (`fp15`), with no stated fact depending
on more than its nonnegativity.
-/

namespace Scraper

/-! ### ASCII string helpers (Python `str` operations on `List Char`) -/

/-- ASCII lowercase of one character, as Python `str.lower` acts on ASCII. -/
def lowChar (c : Char) : Char :=
  if 65 ≤ c.toNat ∧ c.toNat ≤ 90 then Char.ofNat (c.toNat + 32) else c

/-- Python `s.lower()` (modelled for ASCII text). -/
def lowStr (s : String) : String := ⟨s.data.map lowChar⟩

/-- Python `pat in s` substring test, on char lists (`pat` is the needle). -/
def subList (pat : List Char) : List Char → Bool
  | [] => pat.isEmpty
  | c :: cs => pat.isPrefixOf (c :: cs) || subList pat cs

/-- Python `pat in s` substring test on strings. -/
def strHas (s pat : String) : Bool := subList pat.data s.data

/-- Python `s.endswith(pat)`. -/
def strEnds (s pat : String) : Bool := pat.data.isSuffixOf s.data

/-- Python `s.split(c)` (splits on every occurrence, keeping empties). -/
def splitOnCh (c : Char) : List Char → List (List Char)
  | [] => [[]]
  | a :: as =>
    match splitOnCh c as with
    | [] => [[]]
    | h :: t => if a = c then [] :: h :: t else (a :: h) :: t

/-- Python `s.split(c, 1)`: text before the first `c`, and the rest if found. -/
def breakAtCh (c : Char) : List Char → List Char × Option (List Char)
  | [] => ([], none)
  | a :: as =>
    if a = c then ([], some as)
    else
      let r := breakAtCh c as
      (a :: r.1, r.2)

/-- Longest prefix avoiding all of `delims`, plus the remainder
(the scan used by `urllib`'s `_splitnetloc`). -/
def spanNot (delims : List Char) : List Char → List Char × List Char
  | [] => ([], [])
  | a :: as =>
    if delims.contains a then ([], a :: as)
    else
      let r := spanNot delims as
      (a :: r.1, r.2)

/-- Python `sep.join(parts)` on char lists. -/
def interSep (sep : List Char) : List (List Char) → List Char
  | [] => []
  | [x] => x
  | x :: y :: t => x ++ sep ++ interSep sep (y :: t)

/-- Boolean lexicographic comparison of char lists by code point,
matching Python string `<=`. -/
def lexLe : List Char → List Char → Bool
  | [], _ => true
  | _ :: _, [] => false
  | a :: as, b :: bs =>
    if a.toNat < b.toNat then true
    else if b.toNat < a.toNat then false
    else lexLe as bs

/-- Python string `<=` as a proposition. -/
def strLeP (a b : String) : Prop := lexLe a.data b.data = true

instance : DecidableRel strLeP := fun a b =>
  inferInstanceAs (Decidable (_ = true))

/-- Python `sorted` on strings. -/
def sortStrsL (l : List String) : List String := List.insertionSort strLeP l

/-! ### Redirect tracker (`crawler/fetcher.py`, class `RedirectTracker`) -/

/-- State of `RedirectTracker`: `redirect_chains` maps an original URL to
the list of URLs seen for it, and `max_redirects` is the configured cap. -/
structure RedirectTracker where
  chains : List (String × List String)
  maxRedirects : Nat
deriving DecidableEq

/-- A fresh tracker with the default `max_redirects=5`
(the module-level singleton `redirect_tracker`). -/
def mkRedirectTracker : RedirectTracker := ⟨[], 5⟩

/-- Association-list update: replace the binding of `k`, or append it. -/
def setAssoc {β : Type} (m : List (String × β)) (k : String) (v : β) :
    List (String × β) :=
  match m with
  | [] => [(k, v)]
  | (k', v') :: t => if k' = k then (k, v) :: t else (k', v') :: setAssoc t k v

/-- Association-list lookup with a default. -/
def getAssoc {β : Type} (m : List (String × β)) (k : String) (d : β) : β :=
  match m with
  | [] => d
  | (k', v') :: t => if k' = k then v' else getAssoc t k d

/-- `RedirectTracker.add_redirect`: ensure a chain exists (seeded with the
origin), append the new hop, then report `false` on a repeated hop or when
the chain length now exceeds `max_redirects`.  The append persists even
when the call reports `false`. -/
def add_redirect (t : RedirectTracker) (origUrl redirUrl : String) :
    Bool × RedirectTracker :=
  let chain := getAssoc t.chains origUrl [origUrl]
  let chain := chain ++ [redirUrl]
  let t' := { t with chains := setAssoc t.chains origUrl chain }
  if chain.count redirUrl > 1 then (false, t')
  else if chain.length > t.maxRedirects then (false, t')
  else (true, t')

/-- `RedirectTracker.is_in_redirect_chain`. -/
def is_in_redirect_chain (t : RedirectTracker) (chainUrl targetUrl : String) :
    Bool :=
  (getAssoc t.chains chainUrl []).contains targetUrl

/-- Fold a sequence of `add_redirect` calls for one origin, collecting the
returned booleans. -/
def addRedirectSeq (t : RedirectTracker) (origUrl : String) :
    List String → List Bool × RedirectTracker
  | [] => ([], t)
  | h :: hs =>
    let r := add_redirect t origUrl h
    let rest := addRedirectSeq r.2 origUrl hs
    (r.1 :: rest.1, rest.2)

/-! ### `urllib.parse` model

The subset of CPython's `urllib.parse` exercised by the repository:
`urlparse` / `geturl` for `scheme://netloc/path;params?query#fragment`
forms, `parse_qsl` with its default flags, `quote`, `unquote_plus`, and
the ASCII fast path of the `idna` codec.  Percent escapes are decoded for
ASCII bytes only and non-ASCII network locations take the error branch;
every theorem below stays inside that modelled (ASCII) subset. -/

structure PyURL where
  scheme : String
  netloc : String
  path : String
  params : String
  query : String
  fragment : String
deriving DecidableEq

def isAsciiAlphaCh (c : Char) : Bool :=
  decide ((65 ≤ c.toNat ∧ c.toNat ≤ 90) ∨ (97 ≤ c.toNat ∧ c.toNat ≤ 122))

def isDigitCh (c : Char) : Bool :=
  decide (48 ≤ c.toNat ∧ c.toNat ≤ 57)

/-- `urllib.parse.scheme_chars`. -/
def isSchemeCh (c : Char) : Bool :=
  isAsciiAlphaCh c || isDigitCh c || c = '+' || c = '-' || c = '.'

/-- Scheme detection of `urlsplit`: a valid scheme before the first `:`
is split off and lowercased. -/
def splitSchemeL (l : List Char) : String × List Char :=
  match breakAtCh ':' l with
  | (pre, some post) =>
    match pre with
    | [] => ("", l)
    | c :: cs =>
      if isAsciiAlphaCh c && cs.all isSchemeCh then (lowStr ⟨c :: cs⟩, post)
      else ("", l)
  | (_, none) => ("", l)

/-- `urllib.parse.urlsplit` (no params handling). -/
def pyUrlsplit (u : String) : PyURL :=
  let s1 := splitSchemeL u.data
  let n1 :=
    if ['/', '/'].isPrefixOf s1.2 then spanNot ['/', '?', '#'] (s1.2.drop 2)
    else ([], s1.2)
  let f1 := breakAtCh '#' n1.2
  let q1 := breakAtCh '?' f1.1
  ⟨s1.1, ⟨n1.1⟩, ⟨q1.1⟩, "", ⟨q1.2.getD []⟩, ⟨f1.2.getD []⟩⟩

/-- Split a list at the last occurrence of `c`. -/
def breakAtLastCh (c : Char) (l : List Char) : List Char × Option (List Char) :=
  match breakAtCh c l.reverse with
  | (_, none) => (l, none)
  | (revAfter, some revBefore) => (revBefore.reverse, some revAfter.reverse)

/-- `urllib.parse._splitparams`. -/
def splitParamsL (l : List Char) : List Char × List Char :=
  if l.contains '/' then
    match breakAtLastCh '/' l with
    | (before, some lastSeg) =>
      match breakAtCh ';' lastSeg with
      | (p, some ps) => (before ++ '/' :: p, ps)
      | (_, none) => (l, [])
    | (_, none) => (l, [])
  else
    match breakAtCh ';' l with
    | (p, some ps) => (p, ps)
    | (_, none) => (l, [])

/-- `urllib.parse.urlparse`. -/
def pyUrlparse (u : String) : PyURL :=
  let r := pyUrlsplit u
  if r.path.data.contains ';' then
    let pp := splitParamsL r.path.data
    { r with path := ⟨pp.1⟩, params := ⟨pp.2⟩ }
  else r

/-- `urllib.parse.urlunparse` (hence `ParseResult.geturl`). -/
def pyUrlunparse (p : PyURL) : String :=
  let url := if p.params ≠ "" then p.path ++ ";" ++ p.params else p.path
  let url :=
    if p.netloc ≠ "" ∨ ['/', '/'].isPrefixOf url.data then
      let url := if url ≠ "" ∧ ¬ url.data.take 1 = ['/'] then "/" ++ url else url
      "//" ++ p.netloc ++ url
    else url
  let url := if p.scheme ≠ "" then p.scheme ++ ":" ++ url else url
  let url := if p.query ≠ "" then url ++ "?" ++ p.query else url
  if p.fragment ≠ "" then url ++ "#" ++ p.fragment else url

def hexDigitVal (c : Char) : Option Nat :=
  if 48 ≤ c.toNat ∧ c.toNat ≤ 57 then some (c.toNat - 48)
  else if 65 ≤ c.toNat ∧ c.toNat ≤ 70 then some (c.toNat - 55)
  else if 97 ≤ c.toNat ∧ c.toNat ≤ 102 then some (c.toNat - 87)
  else none

/-- `urllib.parse.unquote`, modelled for ASCII bytes: valid `%XX` escapes
below `0x80` decode, invalid escapes pass through, and escapes `≥ 0x80`
(whose decoding would go through UTF-8) are left untouched. -/
def unquoteL : List Char → List Char
  | c :: h1 :: h2 :: rest =>
    if c = '%' then
      match hexDigitVal h1, hexDigitVal h2 with
      | some a, some b =>
        if a * 16 + b < 128 then Char.ofNat (a * 16 + b) :: unquoteL rest
        else '%' :: h1 :: h2 :: unquoteL rest
      | _, _ => '%' :: unquoteL (h1 :: h2 :: rest)
    else c :: unquoteL (h1 :: h2 :: rest)
  | c :: rest => c :: unquoteL rest
  | [] => []

/-- `urllib.parse.unquote_plus`. -/
def unquotePlus (s : String) : String :=
  ⟨unquoteL (s.data.map fun c => if c = '+' then ' ' else c)⟩

/-- `urllib.parse.parse_qsl` with default flags (blank values dropped,
pairs without `=` dropped, separator `&`). -/
def parseQsl (q : String) : List (String × String) :=
  (splitOnCh '&' q.data).filterMap fun part =>
    if part.isEmpty then none
    else
      match breakAtCh '=' part with
      | (_, none) => none
      | (k, some v) =>
        if v.isEmpty then none else some (unquotePlus ⟨k⟩, unquotePlus ⟨v⟩)

def isAlnumCh (c : Char) : Bool := isAsciiAlphaCh c || isDigitCh c

/-- The characters `urllib.parse.quote` never encodes. -/
def alwaysSafeCh (c : Char) : Bool :=
  isAlnumCh c || c = '_' || c = '.' || c = '-' || c = '~'

/-- UTF-8 encoding of one code point. -/
def utf8Bytes (c : Char) : List Nat :=
  let n := c.toNat
  if n < 128 then [n]
  else if n < 2048 then [192 + n / 64, 128 + n % 64]
  else if n < 65536 then [224 + n / 4096, 128 + n / 64 % 64, 128 + n % 64]
  else [240 + n / 262144, 128 + n / 4096 % 64, 128 + n / 64 % 64, 128 + n % 64]

def hexUpDigit (n : Nat) : Char :=
  if n < 10 then Char.ofNat (48 + n) else Char.ofNat (55 + n)

def pctByte (b : Nat) : List Char := ['%', hexUpDigit (b / 16), hexUpDigit (b % 16)]

/-- `urllib.parse.quote(s, safe)`. -/
def pyQuote (s : String) (safe : List Char) : String :=
  ⟨s.data.flatMap fun c =>
    if c.toNat < 128 && (alwaysSafeCh c || safe.contains c) then [c]
    else (utf8Bytes c).flatMap pctByte⟩

/-- The ASCII fast path of `str.encode("idna")` (as used on the network
location): an all-ASCII input passes through unchanged when every
non-final dot-separated label is nonempty and shorter than 64 characters
and the final label is shorter than 64; otherwise the codec raises.
Non-ASCII inputs (which CPython would punycode-encode) are outside the
modelled subset and are sent to the error branch here. -/
def idnaAsciiEncode (s : String) : Option String :=
  if s = "" then some ""
  else if s.data.all (fun c => decide (c.toNat < 128)) then
    let labels := splitOnCh '.' s.data
    if labels.dropLast.all (fun l => decide (0 < l.length ∧ l.length < 64))
        && decide ((labels.getLastD []).length < 64) then
      some s
    else none
  else none

/-! ### URL normalization (`utils/url_service.py`, `normalize_url`) -/

/-- The characters `normalize_url` strips from the raw URL first. -/
def badUrlChars : List Char :=
  ['<', '>', Char.ofNat 34, Char.ofNat 39, Char.ofNat 92,
   Char.ofNat 10, Char.ofNat 13, Char.ofNat 9]

def stripBadChars (l : List Char) : List Char :=
  l.filter fun c => !(badUrlChars.contains c)

/-- Python `s.replace(p, "")` for a three-character pattern `p`
(left-to-right, non-overlapping). -/
def removeTri (a b c : Char) : List Char → List Char
  | x :: y :: z :: rest =>
    if x = a ∧ y = b ∧ z = c then removeTri a b c rest
    else x :: removeTri a b c (y :: z :: rest)
  | l => l

/-- The tracking query parameters removed by `normalize_url`. -/
def trackingKeys : List String :=
  ["utm_source", "utm_medium", "utm_campaign", "utm_term", "utm_content",
   "fbclid", "gclid", "ref", "source", "mc_cid", "mc_eid", "_ga"]

/-- The key set of the `parse_qs` dict, in sorted order. -/
def sKeys (pairs : List (String × String)) : List String :=
  sortStrsL ((pairs.map Prod.fst).dedup)

/-- The value list of one key of the `parse_qs` dict. -/
def valsOf (pairs : List (String × String)) (k : String) : List String :=
  (pairs.filter fun kv => kv.1 == k).map Prod.snd

/-- The loop that rebuilds the query: group `parse_qs`-style by key,
iterate keys in sorted order and each key's values in sorted order. -/
def flatGroups (pairs : List (String × String)) : List (String × String) :=
  (sKeys pairs).flatMap fun k => (sortStrsL (valsOf pairs k)).map fun v => (k, v)

def rebuildQuery (pairs : List (String × String)) : String :=
  ⟨interSep ['&'] ((flatGroups pairs).map fun kv => kv.1.data ++ '=' :: kv.2.data)⟩

/-- The consecutive-duplicate path-segment removal of `normalize_url`. -/
def dedupAdj : List (List Char) → List (List Char)
  | [] => []
  | [a] => [a]
  | a :: b :: t => if a = b then dedupAdj (b :: t) else a :: dedupAdj (b :: t)

def importantPathWords : List String := ["apply", "admission", "undergraduate"]

def nonEmptySegs (l : List Char) : List (List Char) :=
  (splitOnCh '/' l).filter fun p => !p.isEmpty

/-- The deep-path truncation of `normalize_url`: over ten cleaned segments
with no high-value keyword in the joined path keeps only the first five. -/
def truncDeep (cleanParts : List (List Char)) : List (List Char) :=
  if cleanParts.length > 10
      ∧ ¬ importantPathWords.any (fun w => strHas ⟨interSep ['/'] cleanParts⟩ w)
  then cleanParts.take 5
  else cleanParts

/-- `normalize_url` from `utils/url_service.py`.  The `try` body is
modelled directly; the only modelled exception source is the `idna`
encoding of the network location (the `except` branch applies
`re.sub(r'[<>"\'\\]', "", url)` to the already-mutated url and caps it). -/
def normalize_url (url : String) : String :=
  if url = "" then url
  else
    let cleaned := removeTri '%' '3' 'E' (removeTri '%' '3' 'C'
      (removeTri '%' '2' '2' (stripBadChars url.data)))
    let parsed := pyUrlparse ⟨cleaned⟩
    let scheme := lowStr parsed.scheme
    let scheme := if scheme = "" then "http" else scheme
    let query :=
      if parsed.query ≠ "" then
        let qd := (parseQsl parsed.query).filter
          fun kv => !(trackingKeys.contains kv.1)
        if qd ≠ [] then rebuildQuery qd else ""
      else parsed.query
    let path := parsed.path
    let path := if path ≠ "" ∧ ¬ path.data.take 1 = ['/'] then "/" ++ path else path
    let path :=
      if path.data.getLast? = some '/' ∧ path.length > 1 then ⟨path.data.dropLast⟩
      else path
    let cleanParts := truncDeep (dedupAdj (nonEmptySegs path.data))
    let cleanPath : String := ⟨'/' :: interSep ['/'] cleanParts⟩
    let cleanPath := if cleanPath = "" ∨ cleanPath = "/" then "/" else cleanPath
    let cleanPath := pyQuote cleanPath ['/', '%']
    match idnaAsciiEncode parsed.netloc with
    | some host =>
      let finalUrl := pyUrlunparse ⟨scheme, host, cleanPath, parsed.params, query, ""⟩
      if finalUrl.length > 2000 then ⟨finalUrl.data.take 2000⟩ else finalUrl
    | none =>
      let sanitized : String :=
        ⟨cleaned.filter fun c =>
          !([ '<', '>', Char.ofNat 34, Char.ofNat 39, Char.ofNat 92].contains c)⟩
      if sanitized.length > 2000 then ⟨sanitized.data.take 2000⟩ else sanitized

/-! ### Exact numeric scalar

Python represents priorities, delays and `time.time()` stamps as IEEE
doubles.  Every IEEE double is exactly an integer fraction, so the model
uses unnormalized integer fractions with kernel-computable operations;
comparisons and the small additions the crawler performs are exact on the
values involved (the only rounding in the source, in `i * 0.1` priority
increments, is below `10⁻¹⁵` and five orders of magnitude smaller than
the slack of any comparison stated below). -/

structure Frac where
  num : Int
  den : Int
deriving DecidableEq

instance (n : Nat) : OfNat Frac n := ⟨⟨n, 1⟩⟩

instance : Add Frac :=
  ⟨fun a b => ⟨a.num * b.den + b.num * a.den, a.den * b.den⟩⟩

instance : Sub Frac :=
  ⟨fun a b => ⟨a.num * b.den - b.num * a.den, a.den * b.den⟩⟩

/-- Value order by cross multiplication (dens are positive throughout). -/
instance : LT Frac := ⟨fun a b => a.num * b.den < b.num * a.den⟩

instance : LE Frac := ⟨fun a b => a.num * b.den ≤ b.num * a.den⟩

instance (a b : Frac) : Decidable (a < b) :=
  inferInstanceAs (Decidable (a.num * b.den < b.num * a.den))

instance (a b : Frac) : Decidable (a ≤ b) :=
  inferInstanceAs (Decidable (a.num * b.den ≤ b.num * a.den))

/-- The float product `i * 0.1`. -/
def Frac.tenth (i : Nat) : Frac := ⟨i, 10⟩

/-! ### Priority classifier (`utils/url_service.py`, `get_url_priority`,
with pattern tables from `config.py`) -/

/-- `Config.HIGH_PRIORITY_PATTERNS`. -/
def HIGH_PRIORITY_PATTERNS : List String :=
  ["/apply/first-year", "/apply/transfer", "/apply/freshman",
   "/apply/undergraduate", "/apply/online", "/admission/apply",
   "/admission/application", "/admission/first-year",
   "/admission/undergraduate", "/admissions/apply", "/apply", "/admission",
   "/admissions", "/undergraduate"]

/-- `Config.VERY_HIGH_PRIORITY_PATTERNS`. -/
def VERY_HIGH_PRIORITY_PATTERNS : List String :=
  ["/apply$", "/apply/$", "/application$", "/application/$", "/portal",
   "/admission$", "/admission/$", "/admissions$", "/admissions/$",
   "/apply-now", "/apply-now/", "/apply-now$", "/apply-now/$",
   "/prospective$", "/prospective/$", "/prospective-students$",
   "/prospective-students/$", "/prospective-students",
   "/prospective-students/", "/prospective-student$",
   "/prospective-student/$", "/prospective-student",
   "/prospective-student/", "/enroll$", "/enroll/$", "/enroll-now$",
   "/enroll-now/$", "/enroll-now", "/enroll-now/", "/enrollment$",
   "/enrollment/$", "/enrollment-now$", "/enrollment-now/$",
   "/enrollment-now", "/enrollment-now/", "/register$", "/register/$",
   "/register-now$"]

/-- `Config.APPLICATION_KEYWORDS`. -/
def APPLICATION_KEYWORDS : List String :=
  ["apply", "application", "admission", "admissions", "undergraduate",
   "freshman", "enroll", "register", "portal", "submit", "first-year",
   "transfer", "applicant", "prospective"]

/-- `re.search` for the patterns of `VERY_HIGH_PRIORITY_PATTERNS`, which
are all literals with an optional `$` end anchor. -/
def reSearchLit (pat : String) (s : String) : Bool :=
  if pat.data.getLast? = some '$' then strEnds s ⟨pat.data.dropLast⟩
  else strHas s pat

/-- Index of the first matching pattern (the `enumerate` loops). -/
def firstMatchIdx (f : String → Bool) : List String → Option Nat
  | [] => none
  | p :: ps => if f p then some 0 else (firstMatchIdx f ps).map (· + 1)

/-- `any(pattern in path for pattern in Config.HIGH_PRIORITY_PATTERNS)`. -/
def highAny (path : String) : Bool :=
  HIGH_PRIORITY_PATTERNS.any fun pat => strHas path pat

def veryHighIdx (path : String) : Option Nat :=
  firstMatchIdx (fun pat => reSearchLit pat path) VERY_HIGH_PRIORITY_PATTERNS

/-- The application-path test of the admission-subdomain band. -/
def appPathAny (path : String) : Bool :=
  ["/apply", "/admission", "/application", "/portal", "/first-year"].any
    fun p => strHas path p

def admApplyUndergrad (domain : String) : Bool :=
  strHas domain "admission" || strHas domain "apply" || strHas domain "undergrad"

def admDomainAny (domain : String) : Bool :=
  ["admission", "apply", "undergrad", "freshman"].any fun x => strHas domain x

def highIdx (path : String) : Option Nat :=
  firstMatchIdx (fun pat => strHas path pat) HIGH_PRIORITY_PATTERNS

def keywordIdx (path : String) : Option Nat :=
  firstMatchIdx (fun kw => strHas path kw) APPLICATION_KEYWORDS

def pathDepthOf (path : String) : Nat := (nonEmptySegs path.data).length

/-- Dyadic approximation of the Python float `path_depth ** 1.5` (that
is, `sqrt (d ^ 3)`).  The development uses only that this quantity is
nonnegative, which holds for the IEEE value as well. -/
def fp15 (d : Nat) : Frac := ⟨Nat.sqrt (d ^ 3 * 2 ^ 40), 2 ^ 20⟩

/-- The Python int `10 + path_depth`. -/
def basePrio (d : Nat) : Frac := ⟨10 + d, 1⟩

/-- The body of `get_url_priority` on the already-extracted network
location and path (the function lowercases both itself). -/
def url_priority_parts (netloc pathRaw : String) : Frac :=
  let domain := lowStr netloc
  let path := lowStr pathRaw
  if highAny path then 0
  else
    match veryHighIdx path with
    | some i => (1 : Frac) + Frac.tenth i
    | none =>
      if admApplyUndergrad domain && appPathAny path then 2
      else if admDomainAny domain then 3
      else
        match highIdx path with
        | some i => (4 : Frac) + Frac.tenth i
        | none =>
          match keywordIdx path with
          | some i => (6 : Frac) + Frac.tenth i
          | none => basePrio (pathDepthOf path) + fp15 (pathDepthOf path)

/-- `get_url_priority(url, university)` from `utils/url_service.py` (the
`university` argument is unused by the body). -/
def get_url_priority (url : String) : Frac :=
  let parsed := pyUrlparse url
  url_priority_parts parsed.netloc parsed.path

/-! ### Frontier and crawl state
(`crawler/queue.py`, class `UniqueURLQueue`; `models/state_manager.py`,
class `CrawlerState`; constants from `config.py`)

`UniqueURLQueue.put` consults the global `state_manager`, so the model
combines the queue instance, the `CrawlerState` singleton and the
configuration constants into one record and passes it explicitly.  The
inner `asyncio.PriorityQueue` is modelled by its contents plus its
unfinished-task counter: `put` increments the counter, `task_done`
decrements it, and `join` returns exactly when it is zero.  `await`
interleaving is modelled by running an explicit list of operations. -/

/-- A crawl task tuple `(priority, url, depth, university)`.  The
university record is passed through untouched by the queue, so it is
modelled by its name. -/
structure Item where
  priority : Frac
  url : String
  depth : Int
  univ : String
deriving DecidableEq

/-- The combined queue / crawl-state / configuration record. -/
structure Sys where
  inner : List Item
  unfinished : Nat
  urlSet : List String
  qDomainCounts : List (String × Nat)
  domainLastAccess : List (String × Frac)
  currentSize : Int
  maxMemorySize : Int
  maxPerDomain : Nat
  domainRateLimit : Frac
  visitedUrls : List String
  totalUrlsQueued : Nat
  maxTotalUrls : Nat
  maxDepth : Int
deriving DecidableEq

/-- A freshly constructed `UniqueURLQueue()` with a fresh `CrawlerState`
and the shipped configuration (`MAX_TOTAL_URLS = 100000`,
`MAX_DEPTH = 6`). -/
def mkSys : Sys :=
  { inner := [], unfinished := 0, urlSet := [], qDomainCounts := [],
    domainLastAccess := [], currentSize := 0, maxMemorySize := 10000,
    maxPerDomain := 500, domainRateLimit := 1, visitedUrls := [],
    totalUrlsQueued := 0, maxTotalUrls := 100000, maxDepth := 6 }

/-- `urlparse(url).netloc.lower()`. -/
def urlDomain (u : String) : String := lowStr (pyUrlparse u).netloc

/-- Python `set.add`. -/
def setAdd (x : String) (l : List String) : List String :=
  if l.contains x then l else x :: l

/-- `UniqueURLQueue.put(item)`.  Mirrors the source path for path: the
global URL-limit check, the duplicate check against `url_set` (which
inserts before any later rejection), the per-domain cap, the
full-queue/high-priority gate, the `CrawlerState` bookkeeping, the
depth-based `priority += 5` (which rebinds a local and leaves the stored
tuple unchanged), and the final push. -/
def put (s : Sys) (it : Item) : Bool × Sys :=
  if s.totalUrlsQueued ≥ s.maxTotalUrls then (false, s)
  else
    let domain := urlDomain it.url
    if s.urlSet.contains it.url then (false, s)
    else
      let s := { s with urlSet := it.url :: s.urlSet }
      if getAssoc s.qDomainCounts domain 0 ≥ s.maxPerDomain then (false, s)
      else if s.currentSize ≥ s.maxMemorySize ∧ (3 : Frac) < it.priority then
        (false, s)
      else
        let s := { s with
          visitedUrls := setAdd it.url s.visitedUrls,
          totalUrlsQueued := s.totalUrlsQueued + 1,
          qDomainCounts := setAssoc s.qDomainCounts domain
            (getAssoc s.qDomainCounts domain 0 + 1) }
        let _localPriority :=
          if it.depth < 0 ∨ it.depth ≥ s.maxDepth - 3 then it.priority + 5
          else it.priority
        (true, { s with inner := s.inner ++ [it],
                        unfinished := s.unfinished + 1,
                        currentSize := s.currentSize + 1 })

/-- Heap order of the inner `asyncio.PriorityQueue`: tuples compare
lexicographically (`priority`, then `url`; deeper components only break
full ties, which concern equal tuples). -/
def itemLt (a b : Item) : Bool :=
  if a.priority < b.priority then true
  else if b.priority < a.priority then false
  else if lexLe a.url.data b.url.data && !(a.url = b.url) then true
  else false

/-- Pop the heap minimum (first minimal element of the contents). -/
def popMin : List Item → Option (Item × List Item)
  | [] => none
  | a :: as =>
    match popMin as with
    | none => some (a, [])
    | some (m, rest) =>
      if itemLt m a then some (m, a :: rest) else some (a, as)

/-- One iteration of the `while True` loop of `UniqueURLQueue.get()` at
wall-clock time `now`: pop the minimum; if the domain was accessed less
than `domain_rate_limit` ago, push the item back with `priority + 1`
(an inner `put`, which raises the unfinished-task counter) and go round
again (`none`); otherwise record the access time, decrement the domain
counter (floored at 0) and the size, and deliver the item. -/
def getStep (s : Sys) (now : Frac) : Option Item × Sys :=
  match popMin s.inner with
  | none => (none, s)
  | some (it, rest) =>
    let domain := urlDomain it.url
    let last := getAssoc s.domainLastAccess domain 0
    if now - last < s.domainRateLimit then
      (none, { s with inner := rest ++ [{ it with priority := it.priority + 1 }],
                      unfinished := s.unfinished + 1 })
    else
      (some it, { s with inner := rest,
                         domainLastAccess := setAssoc s.domainLastAccess domain now,
                         qDomainCounts := setAssoc s.qDomainCounts domain
                           (getAssoc s.qDomainCounts domain 0 - 1),
                         currentSize := s.currentSize - 1 })

/-- `task_done()` on the inner queue (the worker calls it once per
delivered item; calling it below zero would raise in Python and does not
occur in any execution considered here). -/
def task_done (s : Sys) : Sys := { s with unfinished := s.unfinished - 1 }

/-- `join()` on the inner queue returns exactly when the unfinished-task
counter is zero. -/
def joinReturns (s : Sys) : Bool := s.unfinished = 0

/-- The operations that touch the frontier during a run. -/
inductive Op where
  | put (it : Item)
  | get (now : Frac)
  | done
deriving DecidableEq

def stepOp (s : Sys) : Op → Sys
  | .put it => (put s it).2
  | .get now => (getStep s now).2
  | .done => task_done s

def runOps (s : Sys) (ops : List Op) : Sys := ops.foldl stepOp s

/-- The results of the `put` calls for URL `u` along a run, in order. -/
def putResults (u : String) : Sys → List Op → List Bool
  | _, [] => []
  | s, op :: ops =>
    match op with
    | .put it =>
      if it.url = u then (put s it).1 :: putResults u (stepOp s op) ops
      else putResults u (stepOp s op) ops
    | _ => putResults u (stepOp s op) ops

/-! ### Checkpoint manager (`models/checkpoint_manager.py`) -/

/-- The state of `CheckpointManager` relevant to batching: candidate
pages are opaque to the manager and modelled by strings. -/
structure CkptState where
  pendingApplications : List String
  evaluatedApplications : List String
  lastCheckpointTime : Frac
  checkpointInterval : Frac
  minBatchSize : Nat
  maxBatchSize : Nat
deriving DecidableEq

/-- A manager constructed at time `t0` with the shipped defaults
(`checkpoint_interval=60`, `min_batch_size=10`, `max_batch_size=30`). -/
def mkCkpt (t0 : Frac) : CkptState := ⟨[], [], t0, 60, 10, 30⟩

/-- `CheckpointManager.should_process_batch` at wall-clock `now`. -/
def should_process_batch (s : CkptState) (now : Frac) : Bool :=
  if s.pendingApplications.length ≥ s.minBatchSize then
    if s.pendingApplications.length ≥ s.maxBatchSize then true
    else if s.checkpointInterval ≤ now - s.lastCheckpointTime then true
    else false
  else false

/-- `CheckpointManager.add_application_page`: append, then report whether
a batch should be processed now. -/
def add_application_page (s : CkptState) (p : String) (now : Frac) :
    Bool × CkptState :=
  let s' := { s with pendingApplications := s.pendingApplications ++ [p] }
  (should_process_batch s' now, s')

/-- `CheckpointManager.get_batch_for_processing`: take up to
`max_batch_size` items off the front; with an empty batch it returns
early, leaving the checkpoint clock untouched. -/
def get_batch_for_processing (s : CkptState) (now : Frac) :
    List String × CkptState :=
  let batchSize := min s.pendingApplications.length s.maxBatchSize
  if batchSize = 0 then ([], s)
  else
    (s.pendingApplications.take batchSize,
     { s with pendingApplications := s.pendingApplications.drop batchSize,
              lastCheckpointTime := now })

/-! ### Well-formed URLs for the idempotence analysis

`normalize_url` is *not* idempotent on arbitrary strings (see the `%26`
counterexample below), so the idempotence statement is proved on a class
of URLs built from unreserved ASCII components.  `SimpleUrl` renders to
`http(s)://label(.label)*/seg(/seg)*(?k=v(&k=v)*)`; `nfUrl` is the
canonical form a single normalization produces. -/

def hostCh (c : Char) : Bool := isAlnumCh c || c = '-'

def safeCh (c : Char) : Bool :=
  isAlnumCh c || c = '-' || c = '_' || c = '.' || c = '~'

structure SimpleUrl where
  secure : Bool
  hostLabels : List (List Char)
  segs : List (List Char)
  query : List (String × String)
deriving DecidableEq

def schemeStr (b : Bool) : String := if b then "https" else "http"

def renderQueryL (q : List (String × String)) : List Char :=
  interSep ['&'] (q.map fun kv => kv.1.data ++ '=' :: kv.2.data)

def renderUrl (w : SimpleUrl) : String :=
  ⟨(schemeStr w.secure).data ++ ':' :: '/' :: '/' :: interSep ['.'] w.hostLabels
    ++ '/' :: interSep ['/'] w.segs
    ++ (if w.query.isEmpty then [] else '?' :: renderQueryL w.query)⟩

/-- Well-formedness: nonempty host labels under 64 characters over the
host alphabet, nonempty path segments and query keys/values over the
unreserved alphabet, and a rendering within the 2000-character cap. -/
def wfUrl (w : SimpleUrl) : Bool :=
  !w.hostLabels.isEmpty
    && w.hostLabels.all (fun l => !l.isEmpty && decide (l.length < 64) && l.all hostCh)
    && w.segs.all (fun p => !p.isEmpty && p.all safeCh)
    && w.query.all (fun kv =>
        !kv.1.data.isEmpty && !kv.2.data.isEmpty
          && kv.1.data.all safeCh && kv.2.data.all safeCh)
    && decide ((renderUrl w).length ≤ 2000)

/-- The canonical form produced by one pass of `normalize_url` on a
rendered `SimpleUrl`: path segments deduplicated (and possibly
truncated), tracking keys dropped, and the query regrouped and sorted. -/
def nfUrl (w : SimpleUrl) : SimpleUrl :=
  { w with
    segs := truncDeep (dedupAdj w.segs),
    query := flatGroups (w.query.filter fun kv => !(trackingKeys.contains kv.1)) }

/-! ## Claim theorems -/

/-- C4, counterexample.  With `max_redirects = 5` and six distinct hops
for one origin, the chain (which holds the origin itself in its first
slot) exceeds length 5 already at the fifth hop: `add_redirect` returns
`false` on the 5th call, where the claim asserts `true` for every hop
before the 6th.  The exact result sequence is
`[true, true, true, true, false, false]`. -/
theorem c4_counterexample :
    (addRedirectSeq mkRedirectTracker "https://o.edu/s"
      ["https://o.edu/h1", "https://o.edu/h2", "https://o.edu/h3",
       "https://o.edu/h4", "https://o.edu/h5", "https://o.edu/h6"]).1
      = [true, true, true, true, false, false]
    ∧ (addRedirectSeq mkRedirectTracker "https://o.edu/s"
        ["https://o.edu/h1", "https://o.edu/h2", "https://o.edu/h3",
         "https://o.edu/h4", "https://o.edu/h5", "https://o.edu/h6"]).1
        ≠ [true, true, true, true, true, false] := by
  constructor
  · decide
  · decide

/-- C4, amended.  `add_redirect(origin, next)` appends `next` to the
origin's chain and returns `false` exactly when `next` already occurs in
the chain or the chain length (which counts the origin itself) now
exceeds the configured maximum (default 5): the sequence
`add(o,a), add(o,b), add(o,a)` returns `true, true, false`, and six
distinct hops for one origin return `true` on hops 1–4 and `false` from
the 5th hop on (the chain reaches length 6 > 5 at hop 5). -/
theorem c4_amended :
    (addRedirectSeq mkRedirectTracker "https://o.edu/s"
      ["https://o.edu/a", "https://o.edu/b", "https://o.edu/a"]).1
      = [true, true, false]
    ∧ (addRedirectSeq mkRedirectTracker "https://o.edu/s"
        ["https://o.edu/h1", "https://o.edu/h2", "https://o.edu/h3",
         "https://o.edu/h4", "https://o.edu/h5", "https://o.edu/h6"]).1
        = [true, true, true, true, false, false] := by
  constructor
  · decide
  · decide

/-- C8, counterexample.  `get_batch_for_processing` with an empty
`pending` buffer returns the empty batch through the early-return path
and does *not* reset the checkpoint clock, against the claim that
`drainBatch` "resets the checkpoint clock": at time 100 with
`last_checkpoint_time = 0` the clock stays 0 (strictly before `now`). -/
theorem c8_counterexample :
    (get_batch_for_processing ⟨[], [], 0, 60, 10, 30⟩ 100).1 = []
    ∧ (get_batch_for_processing ⟨[], [], 0, 60, 10, 30⟩ 100).2.lastCheckpointTime
        = (⟨[], [], 0, 60, 10, 30⟩ : CkptState).lastCheckpointTime
    ∧ ((⟨[], [], 0, 60, 10, 30⟩ : CkptState).lastCheckpointTime < (100 : Frac)) := by
  refine ⟨by decide, by decide, by decide⟩

/-- C8, amended.  `add_application_page` reports `true` exactly when the
appended pending size has reached `min_batch_size` and either it has
reached `max_batch_size` or the checkpoint interval has elapsed;
`get_batch_for_processing` returns `min(len(pending), max_batch_size)`
pages off the front of `pending`, removes exactly those, and resets the
checkpoint clock whenever the returned batch is nonempty (with an empty
batch it returns early and leaves the state, clock included, unchanged). -/
theorem c8_amended (s : CkptState) (p : String) (now : Frac) :
    ((add_application_page s p now).1 = true ↔
      (s.minBatchSize ≤ s.pendingApplications.length + 1
        ∧ (s.maxBatchSize ≤ s.pendingApplications.length + 1
            ∨ s.checkpointInterval ≤ now - s.lastCheckpointTime)))
    ∧ (add_application_page s p now).2.pendingApplications
        = s.pendingApplications ++ [p]
    ∧ (get_batch_for_processing s now).1.length ≤ s.maxBatchSize
    ∧ (get_batch_for_processing s now).1
        = s.pendingApplications.take
            (min s.pendingApplications.length s.maxBatchSize)
    ∧ (get_batch_for_processing s now).2.pendingApplications
        = s.pendingApplications.drop
            (min s.pendingApplications.length s.maxBatchSize)
    ∧ ((get_batch_for_processing s now).1 ≠ [] →
        (get_batch_for_processing s now).2.lastCheckpointTime = now)
    ∧ ((get_batch_for_processing s now).1 = [] →
        (get_batch_for_processing s now).2 = s) := by
  have hlen : (s.pendingApplications ++ [p]).length
      = s.pendingApplications.length + 1 := by simp
  refine ⟨?_, by simp [add_application_page], ?_, ?_, ?_, ?_, ?_⟩
  · simp only [add_application_page, should_process_batch, hlen]
    by_cases h1 : s.minBatchSize ≤ s.pendingApplications.length + 1 <;>
      by_cases h2 : s.maxBatchSize ≤ s.pendingApplications.length + 1 <;>
        by_cases h3 : s.checkpointInterval ≤ now - s.lastCheckpointTime <;>
          simp [h1, h2, h3, ge_iff_le]
  · by_cases h : min s.pendingApplications.length s.maxBatchSize = 0
    · simp [get_batch_for_processing, h]
    · simp only [get_batch_for_processing, if_neg h, List.length_take]
      omega
  · by_cases h : min s.pendingApplications.length s.maxBatchSize = 0
    · simp [get_batch_for_processing, h]
    · simp only [get_batch_for_processing, if_neg h]
  · by_cases h : min s.pendingApplications.length s.maxBatchSize = 0
    · simp [get_batch_for_processing, h]
    · simp only [get_batch_for_processing, if_neg h]
  · intro hne
    by_cases h : min s.pendingApplications.length s.maxBatchSize = 0
    · exact absurd (by simp [get_batch_for_processing, h]) hne
    · simp [get_batch_for_processing, h]
  · intro hnil
    by_cases h : min s.pendingApplications.length s.maxBatchSize = 0
    · simp [get_batch_for_processing, h]
    · exact absurd hnil (by
        have hlen : (get_batch_for_processing s now).1.length ≠ 0 := by
          simp only [get_batch_for_processing, if_neg h, List.length_take]
          omega
        intro hn
        exact hlen (by rw [hn]; rfl))

/-- Witness for `c8_amended` at a concrete state: three pending pages,
`min_batch = 2`, `max_batch = 2`, drained at time 100. -/
theorem c8_amended_witness :
    (get_batch_for_processing ⟨["p1", "p2", "p3"], [], 0, 60, 2, 2⟩ 100).1
        = ["p1", "p2"]
    ∧ (get_batch_for_processing ⟨["p1", "p2", "p3"], [], 0, 60, 2, 2⟩ 100).1
        ≠ [] →
      (get_batch_for_processing ⟨["p1", "p2", "p3"], [], 0, 60, 2, 2⟩ 100).2.lastCheckpointTime
        = 100 :=
  fun h => (c8_amended ⟨["p1", "p2", "p3"], [], 0, 60, 2, 2⟩ "q" 100).2.2.2.2.2.1 h.2

/-! ### Frontier admission lemmas -/

/-- Any operation keeps a URL that is in `url_set` in `url_set`
(nothing ever removes from the duplicate-suppression set). -/
theorem urlSet_stepOp (s : Sys) (op : Op) (u : String)
    (h : s.urlSet.contains u = true) : (stepOp s op).urlSet.contains u = true := by
  cases op with
  | put it =>
    simp only [stepOp, put]
    split_ifs <;> simp_all [List.contains_cons]
  | get now =>
    simp only [stepOp, getStep]
    rcases hp : popMin s.inner with _ | ⟨it, rest⟩
    · exact h
    · simp only []
      split_ifs <;> exact h
  | done => exact h

/-- Iterated form of `urlSet_stepOp`. -/
theorem urlSet_runOps (s : Sys) (ops : List Op) (u : String)
    (h : s.urlSet.contains u = true) : (runOps s ops).urlSet.contains u = true := by
  induction ops generalizing s with
  | nil => exact h
  | cons op ops ih => exact ih (stepOp s op) (urlSet_stepOp s op u h)

/-- No operation changes the configuration fields. -/
theorem config_stepOp (s : Sys) (op : Op) :
    (stepOp s op).maxTotalUrls = s.maxTotalUrls
    ∧ (stepOp s op).maxPerDomain = s.maxPerDomain
    ∧ (stepOp s op).maxMemorySize = s.maxMemorySize := by
  cases op with
  | put it =>
    simp only [stepOp, put]
    split_ifs <;> simp
  | get now =>
    simp only [stepOp, getStep]
    rcases hp : popMin s.inner with _ | ⟨it, rest⟩
    · exact ⟨rfl, rfl, rfl⟩
    · simp only []
      split_ifs <;> exact ⟨rfl, rfl, rfl⟩
  | done => exact ⟨rfl, rfl, rfl⟩

/-- The global queued counter never decreases (nothing decrements it). -/
theorem queued_mono_stepOp (s : Sys) (op : Op) :
    s.totalUrlsQueued ≤ (stepOp s op).totalUrlsQueued := by
  cases op with
  | put it =>
    simp only [stepOp, put]
    split_ifs <;> simp
  | get now =>
    simp only [stepOp, getStep]
    rcases hp : popMin s.inner with _ | ⟨it, rest⟩
    · exact le_refl _
    · simp only []
      split_ifs <;> exact le_refl _
  | done => exact le_refl _

/-- After a `put` of URL `u` — whatever it returned — either `u` is in
`url_set` or the global URL limit is (and stays) reached. -/
theorem put_establishes (s : Sys) (it : Item) :
    (put s it).2.urlSet.contains it.url = true
    ∨ (put s it).2.maxTotalUrls ≤ (put s it).2.totalUrlsQueued := by
  simp only [put]
  split_ifs with h1 h2 h3 h4 <;> simp_all [List.contains_cons, ge_iff_le]

/-- The disjunction of `put_establishes` is preserved by every
operation, and forces every later `put` of the same URL to fail. -/
theorem blocked_pres (s : Sys) (op : Op) (u : String)
    (h : s.urlSet.contains u = true ∨ s.maxTotalUrls ≤ s.totalUrlsQueued) :
    (stepOp s op).urlSet.contains u = true
    ∨ (stepOp s op).maxTotalUrls ≤ (stepOp s op).totalUrlsQueued := by
  rcases h with h | h
  · exact Or.inl (urlSet_stepOp s op u h)
  · exact Or.inr ((config_stepOp s op).1 ▸ le_trans h (queued_mono_stepOp s op))

theorem put_false_of_blocked (s : Sys) (it : Item)
    (h : s.urlSet.contains it.url = true ∨ s.maxTotalUrls ≤ s.totalUrlsQueued) :
    (put s it).1 = false := by
  rcases h with h | h
  · simp only [put]
    split_ifs <;> simp_all
  · simp only [put]
    rw [if_pos (by exact h)]

/-- Once blocked, every later `put` of `u` in a run returns `false`. -/
theorem putResults_all_false (u : String) (s : Sys) (ops : List Op)
    (h : s.urlSet.contains u = true ∨ s.maxTotalUrls ≤ s.totalUrlsQueued) :
    ∀ b ∈ putResults u s ops, b = false := by
  induction ops generalizing s with
  | nil => intro b hb; simp [putResults] at hb
  | cons op ops ih =>
    intro b hb
    cases op with
    | put it =>
      by_cases hu : it.url = u
      · simp only [putResults, hu, if_pos rfl] at hb
        rcases List.mem_cons.mp hb with hb | hb
        · subst hb; exact put_false_of_blocked s it (hu ▸ h)
        · exact ih (stepOp s (Op.put it)) (blocked_pres s (Op.put it) u h) b hb
      · simp only [putResults, if_neg hu] at hb
        exact ih (stepOp s (Op.put it)) (blocked_pres s (Op.put it) u h) b hb
    | get now =>
      simp only [putResults] at hb
      exact ih (stepOp s (Op.get now)) (blocked_pres s (Op.get now) u h) b hb
    | done =>
      simp only [putResults] at hb
      exact ih (stepOp s Op.done) (blocked_pres s Op.done u h) b hb

/-- C2.  In any run, among the `put` calls for one URL only the first
can return `true`: every later `put` of that URL returns `false` (so a
URL is admitted to the frontier at most once for the lifetime of the
run).  The run starts from an arbitrary state and may interleave the
`put` calls with any other queue operations. -/
theorem c2_at_most_once (s : Sys) (ops : List Op) (u : String) :
    ∀ b ∈ (putResults u s ops).tail, b = false := by
  induction ops generalizing s with
  | nil => intro b hb; simp [putResults] at hb
  | cons op ops ih =>
    cases op with
    | put it =>
      by_cases hu : it.url = u
      · simp only [putResults, hu, if_pos rfl, List.tail_cons]
        exact putResults_all_false u _ ops (hu ▸ put_establishes s it)
      · simp only [putResults, if_neg hu]
        exact ih (stepOp s (Op.put it))
    | get now =>
      simp only [putResults]
      exact ih (stepOp s (Op.get now))
    | done =>
      simp only [putResults]
      exact ih (stepOp s Op.done)

/-- Witness for `c2_at_most_once`: two `put` calls of the same URL from a
fresh system give `[true, false]`, and the theorem applied to this run
confirms the tail is all `false`. -/
theorem c2_witness :
    putResults "https://d.edu/a" mkSys
        [Op.put ⟨1, "https://d.edu/a", 2, "U"⟩,
         Op.put ⟨0, "https://d.edu/a", 2, "U"⟩] = [true, false]
    ∧ (false ∈ (putResults "https://d.edu/a" mkSys
        [Op.put ⟨1, "https://d.edu/a", 2, "U"⟩,
         Op.put ⟨0, "https://d.edu/a", 2, "U"⟩]).tail → false = false) :=
  ⟨by decide, fun h => c2_at_most_once mkSys
    [Op.put ⟨1, "https://d.edu/a", 2, "U"⟩,
     Op.put ⟨0, "https://d.edu/a", 2, "U"⟩] "https://d.edu/a" false h⟩

/-- C1, counterexample.  With the per-domain cap configured to 2, two
successful `put` calls for `d.edu` exhaust the cap and a further `put`
with near-zero (critical) priority 0 for the same domain returns
`false` — the per-domain cap admits no high-priority exception (the
`priority < 5` test in that branch only controls logging). -/
theorem c1_counterexample :
    (put { mkSys with maxPerDomain := 2 } ⟨5, "https://d.edu/1", 2, "U"⟩).1 = true
    ∧ (put (put { mkSys with maxPerDomain := 2 }
        ⟨5, "https://d.edu/1", 2, "U"⟩).2 ⟨5, "https://d.edu/2", 2, "U"⟩).1 = true
    ∧ (put (put (put { mkSys with maxPerDomain := 2 }
        ⟨5, "https://d.edu/1", 2, "U"⟩).2 ⟨5, "https://d.edu/2", 2, "U"⟩).2
        ⟨0, "https://d.edu/3", 2, "U"⟩).1 = false := by
  refine ⟨by decide, by decide, by decide⟩

/-- C1, amended.  For a new URL under the global URL limit: once the
per-domain queued count has reached the configured cap, `put` returns
`false` for that domain regardless of the task's priority (even a
critical, near-zero priority); the high-priority exception exists only
at the global queue-size cap, where (with the domain cap not reached) a
task is admitted if and only if its priority is not above 3. -/
theorem c1_amended (s : Sys) (it : Item)
    (hq : s.totalUrlsQueued < s.maxTotalUrls)
    (hdup : s.urlSet.contains it.url = false) :
    (s.maxPerDomain ≤ getAssoc s.qDomainCounts (urlDomain it.url) 0 →
      (put s it).1 = false)
    ∧ (getAssoc s.qDomainCounts (urlDomain it.url) 0 < s.maxPerDomain →
        s.maxMemorySize ≤ s.currentSize →
        ((put s it).1 = true ↔ ¬ (3 : Frac) < it.priority)) := by
  constructor
  · intro hcap
    simp only [put, ge_iff_le]
    rw [if_neg (by omega), if_neg (by rw [hdup]; simp), if_pos (by simpa using hcap)]
  · intro hcap hfull
    simp only [put, ge_iff_le]
    rw [if_neg (by omega), if_neg (by rw [hdup]; simp),
      if_neg (by simpa using Nat.not_le.mpr hcap)]
    by_cases hp : (3 : Frac) < it.priority
    · rw [if_pos ⟨by simpa using hfull, hp⟩]
      simp [hp]
    · rw [if_neg (by intro hc; exact hp hc.2)]
      simp [hp]

/-- Witness for `c1_amended`: a state whose `d.edu` count sits at the
default cap 500 rejects a priority-0 task for `d.edu`. -/
theorem c1_witness :
    (put { mkSys with qDomainCounts := [("d.edu", 500)] }
      ⟨0, "https://d.edu/critical", 2, "U"⟩).1 = false :=
  (c1_amended { mkSys with qDomainCounts := [("d.edu", 500)] }
    ⟨0, "https://d.edu/critical", 2, "U"⟩ (by decide) (by decide)).1 (by decide)

/-- C9.  A rejection at the per-domain cap or at the full-queue gate is
not state-neutral: the URL was already added to the queue's
duplicate-suppression set, so the call returns `false` while leaving the
`CrawlerState` visited set, the global queued counter and the per-domain
queued counts unchanged — and every later `put` of the same URL in the
run returns `false`, even after arbitrary further operations (including
`get` steps that lower the domain's queued count below the cap). -/
theorem c9_rejection_poisons_url (s : Sys) (it it2 : Item) (ops : List Op)
    (hurl : it2.url = it.url)
    (hq : s.totalUrlsQueued < s.maxTotalUrls)
    (hdup : s.urlSet.contains it.url = false)
    (hrej : s.maxPerDomain ≤ getAssoc s.qDomainCounts (urlDomain it.url) 0
        ∨ (s.maxMemorySize ≤ s.currentSize ∧ (3 : Frac) < it.priority)) :
    (put s it).1 = false
    ∧ (put s it).2.urlSet.contains it.url = true
    ∧ (put s it).2.visitedUrls = s.visitedUrls
    ∧ (put s it).2.totalUrlsQueued = s.totalUrlsQueued
    ∧ (put s it).2.qDomainCounts = s.qDomainCounts
    ∧ (put (runOps (put s it).2 ops) it2).1 = false := by
  have hbase : (put s it).1 = false
      ∧ (put s it).2.urlSet.contains it.url = true
      ∧ (put s it).2.visitedUrls = s.visitedUrls
      ∧ (put s it).2.totalUrlsQueued = s.totalUrlsQueued
      ∧ (put s it).2.qDomainCounts = s.qDomainCounts := by
    by_cases hcap : s.maxPerDomain ≤ getAssoc s.qDomainCounts (urlDomain it.url) 0
    · simp only [put, ge_iff_le]
      rw [if_neg (by omega), if_neg (by rw [hdup]; simp), if_pos (by simpa using hcap)]
      simp [List.contains_cons]
    · rcases hrej with hrej | hrej
      · exact absurd hrej hcap
      · simp only [put, ge_iff_le]
        rw [if_neg (by omega), if_neg (by rw [hdup]; simp),
          if_neg (by simpa using hcap), if_pos (by simpa using hrej)]
        simp [List.contains_cons]
  refine ⟨hbase.1, hbase.2.1, hbase.2.2.1, hbase.2.2.2.1, hbase.2.2.2.2, ?_⟩
  have hmem : (runOps (put s it).2 ops).urlSet.contains it2.url = true := by
    rw [hurl]
    exact urlSet_runOps (put s it).2 ops it.url hbase.2.1
  exact put_false_of_blocked _ it2 (Or.inl hmem)

/-- Witness for `c9_rejection_poisons_url`: a cap-0 configuration
rejects the very first `put`, the URL is poisoned, counters untouched,
and a later `put` of the same URL (after an unrelated `get` step) still
returns `false`. -/
theorem c9_witness :
    (put { mkSys with maxPerDomain := 0 } ⟨1, "https://d.edu/a", 2, "U"⟩).1 = false
    ∧ (put (runOps (put { mkSys with maxPerDomain := 0 }
        ⟨1, "https://d.edu/a", 2, "U"⟩).2 [Op.get 7])
        ⟨0, "https://d.edu/a", 2, "U"⟩).1 = false := by
  have h := c9_rejection_poisons_url { mkSys with maxPerDomain := 0 }
    ⟨1, "https://d.edu/a", 2, "U"⟩ ⟨0, "https://d.edu/a", 2, "U"⟩ [Op.get 7]
    (by decide) (by decide) (by decide) (Or.inl (by decide))
  exact ⟨h.1, h.2.2.2.2.2⟩

/-- C10.  For an admitted task whose depth triggers the
de-prioritization step (`depth < 0` or `depth ≥ MAX_DEPTH - 3`), the
tuple pushed onto the heap is exactly the tuple passed to `put`: the
`priority += 5` in the source rebinds a local name only, and the item is
stored with its original priority, URL, depth and target. -/
theorem c10_stored_tuple_unchanged (s : Sys) (it : Item)
    (hdeep : it.depth < 0 ∨ s.maxDepth - 3 ≤ it.depth)
    (hsucc : (put s it).1 = true) :
    (put s it).2.inner = s.inner ++ [it] := by
  simp only [put, ge_iff_le] at hsucc ⊢
  split_ifs at hsucc ⊢ <;> simp_all

/-- Witness for `c10_stored_tuple_unchanged` at depth `-1` (inside the
de-prioritization window): the stored item keeps priority 7. -/
theorem c10_witness :
    (put mkSys ⟨7, "https://d.edu/deep", -1, "U"⟩).2.inner
      = [⟨7, "https://d.edu/deep", -1, "U"⟩] :=
  c10_stored_tuple_unchanged mkSys ⟨7, "https://d.edu/deep", -1, "U"⟩
    (Or.inl (by decide)) (by decide)

/-- C3 (a code bug).  Two tasks for the same domain are admitted; the
first `get` delivers task `a` at time 100; the second `get` at time
100.5 is inside the 1-second domain interval, so the item is pushed back
with `priority + 1` — an inner `queue.put` that raises the
unfinished-task counter with no matching `task_done` anywhere; the third
`get` at time 102 delivers task `b`.  Both admitted tasks have been
dequeued and `task_done` is called exactly once per admitted task, yet
the unfinished-task counter ends at 1, so `join()` — which waits for the
counter to reach zero — blocks forever, against the claim (and both the
spec and the method's own docstring). -/
theorem c3_join_never_returns :
    (put mkSys ⟨1, "https://d.edu/a", 2, "U"⟩).1 = true
    ∧ (put (put mkSys ⟨1, "https://d.edu/a", 2, "U"⟩).2
        ⟨2, "https://d.edu/b", 2, "U"⟩).1 = true
    ∧ (getStep (runOps mkSys [Op.put ⟨1, "https://d.edu/a", 2, "U"⟩,
        Op.put ⟨2, "https://d.edu/b", 2, "U"⟩]) 100).1
        = some ⟨1, "https://d.edu/a", 2, "U"⟩
    ∧ (getStep (runOps mkSys [Op.put ⟨1, "https://d.edu/a", 2, "U"⟩,
        Op.put ⟨2, "https://d.edu/b", 2, "U"⟩, Op.get 100]) ⟨201, 2⟩).1 = none
    ∧ ((getStep (runOps mkSys [Op.put ⟨1, "https://d.edu/a", 2, "U"⟩,
        Op.put ⟨2, "https://d.edu/b", 2, "U"⟩, Op.get 100, Op.get ⟨201, 2⟩])
        102).1.map Item.url) = some "https://d.edu/b"
    ∧ (runOps mkSys [Op.put ⟨1, "https://d.edu/a", 2, "U"⟩,
        Op.put ⟨2, "https://d.edu/b", 2, "U"⟩, Op.get 100, Op.get ⟨201, 2⟩,
        Op.get 102, Op.done, Op.done]).unfinished = 1
    ∧ joinReturns (runOps mkSys [Op.put ⟨1, "https://d.edu/a", 2, "U"⟩,
        Op.put ⟨2, "https://d.edu/b", 2, "U"⟩, Op.get 100, Op.get ⟨201, 2⟩,
        Op.get 102, Op.done, Op.done]) = false := by
  refine ⟨by decide, by decide, by decide, by decide, by decide, by decide, by decide⟩

/-! ### Priority ordering lemmas -/

theorem Frac.add_def (a b : Frac) :
    a + b = ⟨a.num * b.den + b.num * a.den, a.den * b.den⟩ := rfl

theorem Frac.lt_def (a b : Frac) : a < b ↔ a.num * b.den < b.num * a.den :=
  Iff.rfl

theorem Frac.ofNat_def (n : Nat) : (OfNat.ofNat n : Frac) = ⟨n, 1⟩ := rfl

/-- Every value of the very-high-priority band (`1 + i * 0.1`) is
strictly positive. -/
theorem zero_lt_one_add_tenth (i : Nat) : (0 : Frac) < (1 : Frac) + Frac.tenth i := by
  rw [Frac.lt_def]
  simp only [Frac.add_def, Frac.tenth, Frac.ofNat_def]
  omega

/-- The default priority band `10 + depth + depth ** 1.5` is strictly
positive (only nonnegativity of the power term is used). -/
theorem basePrio_fp15_pos (d : Nat) : (0 : Frac) < basePrio d + fp15 d := by
  rw [Frac.lt_def]
  simp only [Frac.add_def, basePrio, fp15, Frac.ofNat_def]
  have h1 : (0 : Int) ≤ (Nat.sqrt (d ^ 3 * 2 ^ 40) : Int) := Int.ofNat_nonneg _
  have h2 : (0 : Int) ≤ (d : Int) := Int.ofNat_nonneg _
  push_cast
  nlinarith

/-- A path containing `/apply` matches the general high-priority list. -/
theorem highAny_of_apply (p : String) (h : strHas p "/apply" = true) :
    highAny p = true := by
  simp only [highAny, List.any_eq_true]
  exact ⟨"/apply", by decide, h⟩

/-- A domain containing `admission` passes the admission-subdomain test. -/
theorem admDomainAny_of_admission (d : String)
    (h : strHas d "admission" = true) : admDomainAny d = true := by
  simp only [admDomainAny, List.any_eq_true]
  exact ⟨"admission", by decide, h⟩

/-- C6, counterexample.  `https://x.edu/portal` matches the
very-high-priority set (pattern index 4) and gets priority 1.4, while
`https://x.edu/undergraduate` matches only the general high-priority
pattern list (no very-high pattern, no admissions-flavored domain) and
gets priority 0 from the classifier's *first* check — so the band-(1)
URL is *not* strictly more urgent than the band-(4)-only URL. -/
theorem c6_counterexample :
    (veryHighIdx (lowStr "/portal")).isSome = true
    ∧ highAny (lowStr "/portal") = false
    ∧ highAny (lowStr "/undergraduate") = true
    ∧ (veryHighIdx (lowStr "/undergraduate")).isSome = false
    ∧ admDomainAny (lowStr "x.edu") = false
    ∧ get_url_priority "https://x.edu/portal" = ⟨14, 10⟩
    ∧ get_url_priority "https://x.edu/undergraduate" = 0
    ∧ ¬ get_url_priority "https://x.edu/portal"
        < get_url_priority "https://x.edu/undergraduate" := by
  refine ⟨by decide, by decide, by decide, by decide, by decide, by decide,
    by decide, by decide⟩

/-- C6, amended.  The realized ordering is the inverse of the claim: a
URL whose path matches the general high-priority pattern list is
assigned priority 0 by the classifier's first check (making the `4 + i *
0.1` band for the same list unreachable), which is strictly more urgent
than the `1 + i * 0.1` value of any URL matching only the
very-high-priority literal/regex set. -/
theorem c6_amended (d1 p1 d2 p2 : String)
    (h1 : highAny (lowStr p1) = true)
    (h2 : highAny (lowStr p2) = false)
    (h3 : (veryHighIdx (lowStr p2)).isSome = true) :
    url_priority_parts d1 p1 < url_priority_parts d2 p2 := by
  obtain ⟨i, hi⟩ := Option.isSome_iff_exists.mp h3
  have hL : url_priority_parts d1 p1 = 0 := by
    simp [url_priority_parts, h1]
  have hR : url_priority_parts d2 p2 = (1 : Frac) + Frac.tenth i := by
    simp [url_priority_parts, h2, hi]
  rw [hL, hR]
  exact zero_lt_one_add_tenth i

/-- Witness for `c6_amended`: `/undergraduate` (general list, priority
0) against `/portal` (very-high set only, priority 1.4) on `x.edu`. -/
theorem c6_amended_witness :
    url_priority_parts "x.edu" "/undergraduate"
      < url_priority_parts "x.edu" "/portal" :=
  c6_amended "x.edu" "/undergraduate" "x.edu" "/portal"
    (by decide) (by decide) (by decide)

/-- C7, counterexample.  On the admissions subdomain
`admissions.x.edu`, the URL with `/apply` in its path and the URL
without it can both get priority 0 (the second via the `/admission`
general pattern), so the `/apply` URL is *not* strictly more urgent. -/
theorem c7_counterexample :
    strHas (lowStr "admissions.x.edu") "admission" = true
    ∧ strHas (lowStr "/apply") "/apply" = true
    ∧ strHas (lowStr "/admission") "/apply" = false
    ∧ get_url_priority "https://admissions.x.edu/apply" = 0
    ∧ get_url_priority "https://admissions.x.edu/admission" = 0
    ∧ ¬ get_url_priority "https://admissions.x.edu/apply"
        < get_url_priority "https://admissions.x.edu/admission" := by
  refine ⟨by decide, by decide, by decide, by decide, by decide, by decide⟩

/-- C7, amended.  (1) On every domain, `/apply/first-year` gets a
strictly lower priority value than `/news/2024` (0 against 3 on
admissions-flavored domains, 0 against the `≥ 10` default band
elsewhere).  (2) Of two URLs on admissions subdomains, the one whose
path contains `/apply` (priority 0) is strictly more urgent than one
whose path matches none of the general high-priority patterns (priority
between 1 and 3). -/
theorem c7_amended :
    (∀ d : String,
      url_priority_parts d "/apply/first-year" < url_priority_parts d "/news/2024")
    ∧ (∀ d1 p1 d2 p2 : String,
        strHas (lowStr d1) "admission" = true →
        strHas (lowStr d2) "admission" = true →
        strHas (lowStr p1) "/apply" = true →
        highAny (lowStr p2) = false →
        url_priority_parts d1 p1 < url_priority_parts d2 p2) := by
  constructor
  · intro d
    have hL : url_priority_parts d "/apply/first-year" = 0 := by
      simp [url_priority_parts, show highAny (lowStr "/apply/first-year") = true
        from by decide]
    rw [hL]
    have hh : highAny (lowStr "/news/2024") = false := by decide
    have hv : veryHighIdx (lowStr "/news/2024") = none := by decide
    have ha : appPathAny (lowStr "/news/2024") = false := by decide
    have hhi : highIdx (lowStr "/news/2024") = none := by decide
    have hk : keywordIdx (lowStr "/news/2024") = none := by decide
    have hd2 : pathDepthOf (lowStr "/news/2024") = 2 := by decide
    simp only [url_priority_parts, hh, hv, ha, hhi, hk, hd2, Bool.and_false,
      Bool.false_eq_true, if_false]
    by_cases hd : admDomainAny (lowStr d) = true
    · simp only [hd, if_true]
      decide
    · simp only [hd, if_false]
      exact basePrio_fp15_pos 2
  · intro d1 p1 d2 p2 hd1 hd2 hp1 hp2
    have hL : url_priority_parts d1 p1 = 0 := by
      simp [url_priority_parts, highAny_of_apply (lowStr p1) hp1]
    rw [hL]
    have hadm : admDomainAny (lowStr d2) = true :=
      admDomainAny_of_admission (lowStr d2) hd2
    simp only [url_priority_parts, hp2, Bool.false_eq_true, if_false]
    rcases hv : veryHighIdx (lowStr p2) with _ | i
    · simp only []
      by_cases hco : (admApplyUndergrad (lowStr d2) && appPathAny (lowStr p2)) = true
      · simp only [hco, if_true]
        decide
      · simp only [hco, Bool.false_eq_true, if_false, hadm, if_true]
        decide
    · simp only []
      exact zero_lt_one_add_tenth i

/-- Witness for `c7_amended`: part (1) at `x.edu`, part (2) at
`admissions.x.edu` with paths `/apply` and `/visit`. -/
theorem c7_amended_witness :
    url_priority_parts "x.edu" "/apply/first-year"
      < url_priority_parts "x.edu" "/news/2024"
    ∧ url_priority_parts "admissions.x.edu" "/apply"
      < url_priority_parts "admissions.x.edu" "/visit" :=
  ⟨c7_amended.1 "x.edu",
   c7_amended.2 "admissions.x.edu" "/apply" "admissions.x.edu" "/visit"
     (by decide) (by decide) (by decide) (by decide)⟩

/-! ### C5 groundwork: string-scan round trips -/

theorem breakAtCh_not_mem (c : Char) (l : List Char) (h : c ∉ l) :
    breakAtCh c l = (l, none) := by
  induction l with
  | nil => rfl
  | cons a as ih =>
    have ha : ¬ a = c := fun e => h (e ▸ List.mem_cons_self a as)
    simp [breakAtCh, ha, ih fun hm => h (List.mem_cons_of_mem a hm)]

theorem breakAtCh_append (c : Char) (l1 l2 : List Char) (h : c ∉ l1) :
    breakAtCh c (l1 ++ c :: l2) = (l1, some l2) := by
  induction l1 with
  | nil => simp [breakAtCh]
  | cons a as ih =>
    have ha : ¬ a = c := fun e => h (e ▸ List.mem_cons_self a as)
    simp [breakAtCh, ha, ih fun hm => h (List.mem_cons_of_mem a hm)]

theorem spanNot_append (delims : List Char) (l1 l2 : List Char) (d : Char)
    (h : ∀ x ∈ l1, delims.contains x = false) (hd : delims.contains d = true) :
    spanNot delims (l1 ++ d :: l2) = (l1, d :: l2) := by
  induction l1 with
  | nil =>
    have hd' : d ∈ delims := by simpa using hd
    simp [spanNot, hd']
  | cons a as ih =>
    have ha : a ∉ delims := by simpa using h a (List.mem_cons_self a as)
    simp [spanNot, ha, ih fun x hx => h x (List.mem_cons_of_mem a hx)]

theorem splitOnCh_ne_nil (c : Char) (l : List Char) : splitOnCh c l ≠ [] := by
  cases l with
  | nil => simp [splitOnCh]
  | cons a as =>
    simp only [splitOnCh]
    rcases h : splitOnCh c as with _ | ⟨x, t⟩
    · simp
    · split_ifs <;> simp

theorem splitOnCh_not_mem (c : Char) (l : List Char) (h : c ∉ l) :
    splitOnCh c l = [l] := by
  induction l with
  | nil => rfl
  | cons a as ih =>
    have ha : ¬ a = c := fun e => h (e ▸ List.mem_cons_self a as)
    rw [splitOnCh, ih fun hm => h (List.mem_cons_of_mem a hm)]
    simp [ha]

theorem splitOnCh_append (c : Char) (x rest : List Char) (hx : c ∉ x) :
    splitOnCh c (x ++ c :: rest) = x :: splitOnCh c rest := by
  induction x with
  | nil =>
    simp only [List.nil_append, splitOnCh]
    rcases h : splitOnCh c rest with _ | ⟨y, t⟩
    · exact absurd h (splitOnCh_ne_nil c rest)
    · simp
  | cons a as ih =>
    have ha : ¬ a = c := fun e => hx (e ▸ List.mem_cons_self a as)
    rw [List.cons_append, splitOnCh, ih fun hm => hx (List.mem_cons_of_mem a hm)]
    simp [ha]

theorem splitOnCh_inter (c : Char) (parts : List (List Char))
    (hne : parts ≠ []) (h : ∀ p ∈ parts, c ∉ p) :
    splitOnCh c (interSep [c] parts) = parts := by
  induction parts with
  | nil => exact absurd rfl hne
  | cons x xs ih =>
    cases xs with
    | nil => exact splitOnCh_not_mem c x (h x (List.mem_cons_self x []))
    | cons y ys =>
      have : interSep [c] (x :: y :: ys) = x ++ c :: interSep [c] (y :: ys) := by
        simp [interSep]
      rw [this, splitOnCh_append c x _ (h x (List.mem_cons_self x _)),
        ih (by simp) fun p hp => h p (List.mem_cons_of_mem x hp)]

theorem interSep_ne_nil (sep : List Char) (parts : List (List Char))
    (hne : parts ≠ []) (h : ∀ p ∈ parts, p ≠ []) :
    interSep sep parts ≠ [] := by
  cases parts with
  | nil => exact absurd rfl hne
  | cons x xs =>
    cases xs with
    | nil => exact h x (List.mem_cons_self x [])
    | cons y ys =>
      have hx := h x (List.mem_cons_self x _)
      simp only [interSep]
      intro hh
      exact hx (List.append_eq_nil.mp ((List.append_eq_nil.mp hh).1)).1

/-- Characters occurring in a separator join come from the separator or
from one of the parts. -/
theorem interSep_mem (sep : List Char) (parts : List (List Char)) (x : Char)
    (hx : x ∈ interSep sep parts) : x ∈ sep ∨ ∃ p ∈ parts, x ∈ p := by
  induction parts with
  | nil => simp [interSep] at hx
  | cons a as ih =>
    cases as with
    | nil =>
      simp only [interSep] at hx
      exact Or.inr ⟨a, List.mem_cons_self a [], hx⟩
    | cons b bs =>
      simp only [interSep, List.append_assoc, List.mem_append] at hx
      rcases hx with hx | hx | hx
      · exact Or.inr ⟨a, List.mem_cons_self a _, hx⟩
      · exact Or.inl hx
      · rcases ih hx with h | ⟨p, hp, hxp⟩
        · exact Or.inl h
        · exact Or.inr ⟨p, List.mem_cons_of_mem a hp, hxp⟩

theorem removeTri_id (a b c : Char) :
    ∀ l : List Char, a ∉ l → removeTri a b c l = l
  | [], _ => rfl
  | [x], _ => rfl
  | [x, y], _ => rfl
  | x :: y :: z :: rest, h => by
    have hx : ¬ (x = a ∧ y = b ∧ z = c) := by
      rintro ⟨rfl, -, -⟩
      exact h (List.mem_cons_self x _)
    rw [removeTri, if_neg hx,
      removeTri_id a b c (y :: z :: rest) fun hm => h (List.mem_cons_of_mem x hm)]

theorem unquoteL_id : ∀ l : List Char, '%' ∉ l → unquoteL l = l
  | [], _ => rfl
  | [x], h => by
    have hx : ¬ x = '%' := fun e => h (e ▸ List.mem_cons_self x _)
    simp [unquoteL]
  | [x, y], h => by
    have hx : ¬ x = '%' := fun e => h (e ▸ List.mem_cons_self x _)
    simp [unquoteL]
  | x :: y :: z :: rest, h => by
    have hx : ¬ x = '%' := fun e => h (e ▸ List.mem_cons_self x _)
    rw [unquoteL, if_neg hx,
      unquoteL_id (y :: z :: rest) fun hm => h (List.mem_cons_of_mem x hm)]

theorem unquotePlus_id (s : String) (h : '%' ∉ s.data ∧ '+' ∉ s.data) :
    unquotePlus s = s := by
  have hmap : ∀ l : List Char, '+' ∉ l →
      (l.map fun c => if c = '+' then ' ' else c) = l := by
    intro l hl
    induction l with
    | nil => rfl
    | cons a as ih =>
      have ha : ¬ a = '+' := fun e => hl (e ▸ List.mem_cons_self a as)
      simp only [List.map_cons, if_neg ha,
        ih fun hm => hl (List.mem_cons_of_mem a hm)]
  simp only [unquotePlus, hmap s.data h.2, unquoteL_id s.data h.1]

theorem quoteFlat_id (safe : List Char) :
    ∀ l : List Char,
      (∀ c ∈ l, c.toNat < 128 ∧ (alwaysSafeCh c || safe.contains c) = true) →
      (l.flatMap fun c =>
        if c.toNat < 128 && (alwaysSafeCh c || safe.contains c) then [c]
        else (utf8Bytes c).flatMap pctByte) = l
  | [], _ => rfl
  | a :: as, h => by
    have ha := h a (List.mem_cons_self a as)
    rw [List.flatMap_cons,
      if_pos (by rw [Bool.and_eq_true]; exact ⟨decide_eq_true ha.1, ha.2⟩),
      quoteFlat_id safe as fun c hc => h c (List.mem_cons_of_mem a hc)]
    rfl

theorem pyQuote_id (s : String) (safe : List Char)
    (h : ∀ c ∈ s.data, c.toNat < 128 ∧ (alwaysSafeCh c || safe.contains c) = true) :
    pyQuote s safe = s := by
  simp only [pyQuote]
  exact congrArg String.mk (quoteFlat_id safe s.data h)

/-! ### C5 groundwork: the sorted query rebuild -/

theorem char_eq_of_toNat_eq {a b : Char} (h : a.toNat = b.toNat) : a = b := by
  have h3 : a.val.toBitVec = b.val.toBitVec := BitVec.toNat_injective h
  have hv : a.val = b.val := by
    cases ha : a.val with
    | mk x =>
      cases hb : b.val with
      | mk y =>
        rw [ha, hb] at h3
        exact congrArg UInt32.mk h3
  exact Char.eq_of_val_eq hv

theorem lexLe_total : ∀ a b : List Char, lexLe a b = true ∨ lexLe b a = true
  | [], _ => Or.inl rfl
  | _ :: _, [] => Or.inr rfl
  | a :: as, b :: bs => by
    by_cases h1 : a.toNat < b.toNat
    · exact Or.inl (by simp [lexLe, h1])
    · by_cases h2 : b.toNat < a.toNat
      · exact Or.inr (by simp [lexLe, h2])
      · rcases lexLe_total as bs with h | h
        · exact Or.inl (by simp [lexLe, h1, h2, h])
        · exact Or.inr (by simp [lexLe, h1, h2, h])

theorem lexLe_trans : ∀ a b c : List Char,
    lexLe a b = true → lexLe b c = true → lexLe a c = true
  | [], _, _, _, _ => rfl
  | _ :: _, [], _, hab, _ => by simp [lexLe] at hab
  | _ :: _, _ :: _, [], _, hbc => by simp [lexLe] at hbc
  | a :: as, b :: bs, c :: cs, hab, hbc => by
    simp only [lexLe] at hab hbc ⊢
    by_cases h1 : a.toNat < b.toNat
    · by_cases h2 : b.toNat < c.toNat
      · simp [show a.toNat < c.toNat from by omega]
      · by_cases h3 : c.toNat < b.toNat
        · rw [if_neg h2, if_pos h3] at hbc
          simp at hbc
        · simp [show a.toNat < c.toNat from by omega]
    · by_cases h4 : b.toNat < a.toNat
      · rw [if_neg h1, if_pos h4] at hab
        simp at hab
      · by_cases h2 : b.toNat < c.toNat
        · simp [show a.toNat < c.toNat from by omega]
        · by_cases h3 : c.toNat < b.toNat
          · rw [if_neg h2, if_pos h3] at hbc
            simp at hbc
          · rw [if_neg h1, if_neg h4] at hab
            rw [if_neg h2, if_neg h3] at hbc
            rw [if_neg (by omega), if_neg (by omega)]
            exact lexLe_trans as bs cs hab hbc

theorem lexLe_antisymm : ∀ a b : List Char,
    lexLe a b = true → lexLe b a = true → a = b
  | [], [], _, _ => rfl
  | [], _ :: _, _, hba => by simp [lexLe] at hba
  | _ :: _, [], hab, _ => by simp [lexLe] at hab
  | a :: as, b :: bs, hab, hba => by
    simp only [lexLe] at hab hba
    by_cases h1 : a.toNat < b.toNat
    · rw [if_neg (by omega), if_pos h1] at hba
      simp at hba
    · by_cases h2 : b.toNat < a.toNat
      · rw [if_neg h1, if_pos h2] at hab
        simp at hab
      · rw [if_neg h1, if_neg h2] at hab
        rw [if_neg h2, if_neg h1] at hba
        rw [char_eq_of_toNat_eq (show a.toNat = b.toNat from by omega),
          lexLe_antisymm as bs hab hba]

instance : IsTotal String strLeP :=
  ⟨fun a b => lexLe_total a.data b.data⟩

instance : IsTrans String strLeP :=
  ⟨fun a b c => lexLe_trans a.data b.data c.data⟩

instance : IsAntisymm String strLeP :=
  ⟨fun a b h1 h2 => by
    cases a
    cases b
    exact congrArg String.mk (lexLe_antisymm _ _ h1 h2)⟩

theorem sortStrsL_sorted (l : List String) : (sortStrsL l).Sorted strLeP :=
  List.sorted_insertionSort strLeP l

theorem sortStrsL_perm (l : List String) : List.Perm (sortStrsL l) l :=
  List.perm_insertionSort strLeP l

theorem sortStrsL_of_sorted {l : List String} (h : l.Sorted strLeP) :
    sortStrsL l = l :=
  h.insertionSort_eq

theorem mem_sKeys (p : List (String × String)) (k : String) :
    k ∈ sKeys p ↔ k ∈ p.map Prod.fst := by
  rw [sKeys, sortStrsL, (List.perm_insertionSort strLeP _).mem_iff,
    List.mem_dedup]

theorem sKeys_nodup (p : List (String × String)) : (sKeys p).Nodup :=
  ((sortStrsL_perm _).nodup_iff).mpr ((p.map Prod.fst).nodup_dedup)

/-- Count of a pair inside one rebuilt key group. -/
theorem count_group (k : String) (vs : List String) (x : String × String) :
    ((vs.map fun v => (k, v)).count x) = if x.1 = k then vs.count x.2 else 0 := by
  induction vs with
  | nil => simp
  | cons v vs ih =>
    simp only [List.map_cons, List.count_cons, ih, beq_iff_eq, Prod.ext_iff]
    by_cases hx : x.1 = k
    · by_cases hv : x.2 = v <;> simp [hx, hv]
    · have hx' : ¬ k = x.1 := fun e => hx e.symm
      simp [hx, hx']

/-- Counting a value among one key's `parse_qs` values is counting the
pair in the original pair list. -/
theorem count_valsOf : ∀ (p : List (String × String)) (k v : String),
    (valsOf p k).count v = p.count (k, v)
  | [], _, _ => rfl
  | kv :: t, k, v => by
    have ih := count_valsOf t k v
    by_cases hk : kv.1 = k
    · rw [valsOf, List.filter_cons, if_pos (by simpa using hk), List.map_cons]
      rw [show List.map Prod.snd (List.filter (fun x => x.1 == k) t)
        = valsOf t k from rfl]
      simp only [List.count_cons, ih, beq_iff_eq, Prod.ext_iff]
      by_cases hv : kv.2 = v <;> simp [hk, hv]
    · rw [valsOf, List.filter_cons, if_neg (by simpa using hk)]
      rw [show List.map Prod.snd (List.filter (fun x => x.1 == k) t)
        = valsOf t k from rfl]
      simp only [List.count_cons, ih, beq_iff_eq, Prod.ext_iff]
      simp [hk]

theorem count_perm_any {α : Type} [BEq α] {l1 l2 : List α}
    (h : List.Perm l1 l2) (a : α) : l1.count a = l2.count a :=
  h.countP_eq _

/-- `List.count` on pairs is instance-independent (bridging the
`DecidableEq`-derived instance used by `perm_iff_count`). -/
theorem countPair_bridge (x : String × String) (l : List (String × String)) :
    @List.count _ instBEqOfDecidableEq x l = l.count x := by
  induction l with
  | nil => rfl
  | cons kv t ih =>
    rw [@List.count_cons _ instBEqOfDecidableEq, @List.count_cons _ instBEqProd, ih]
    congr 1
    by_cases h : kv = x
    · rw [if_pos (show (@BEq.beq _ instBEqOfDecidableEq kv x) = true by
        show decide (kv = x) = true
        simp [h])]
      rw [if_pos (beq_iff_eq.mpr h)]
    · rw [if_neg (show ¬ (@BEq.beq _ instBEqOfDecidableEq kv x) = true by
        show ¬ decide (kv = x) = true
        simp [h])]
      rw [if_neg (by simp [h])]

theorem count_flatMap_groups (p : List (String × String)) (x : String × String) :
    ∀ ks : List String, ks.Nodup →
    ((ks.flatMap fun k => (sortStrsL (valsOf p k)).map fun v => (k, v)).count x)
      = if x.1 ∈ ks then (valsOf p x.1).count x.2 else 0
  | [], _ => by simp
  | k :: ks, hnd => by
    rw [List.flatMap_cons, List.count_append, count_group,
      count_flatMap_groups p x ks hnd.of_cons]
    by_cases h1 : x.1 = k
    · subst h1
      have hnotin : x.1 ∉ ks := (List.nodup_cons.mp hnd).1
      rw [if_pos rfl, if_neg hnotin, if_pos (List.mem_cons_self x.1 ks),
        count_perm_any (sortStrsL_perm (valsOf p x.1)) x.2]
      omega
    · rw [if_neg h1]
      by_cases h2 : x.1 ∈ ks
      · rw [if_pos h2, if_pos (List.mem_cons_of_mem k h2)]
        omega
      · rw [if_neg h2, if_neg (by simp [h1, h2])]

/-- The rebuilt query is a permutation of the parsed pairs. -/
theorem flatGroups_perm (p : List (String × String)) :
    List.Perm (flatGroups p) p := by
  rw [List.perm_iff_count]
  intro x
  rw [countPair_bridge x (flatGroups p), countPair_bridge x p]
  rw [show flatGroups p
    = (sKeys p).flatMap fun k => (sortStrsL (valsOf p k)).map fun v => (k, v)
    from rfl]
  rw [count_flatMap_groups p x (sKeys p) (sKeys_nodup p)]
  by_cases hx : x.1 ∈ sKeys p
  · rw [if_pos hx, count_valsOf]
  · rw [if_neg hx, eq_comm, List.count_eq_zero]
    intro hmem
    exact hx ((mem_sKeys p x.1).mpr (List.mem_map.mpr ⟨x, hmem, rfl⟩))

theorem filter_groups (p : List (String × String)) (k : String) :
    ∀ ks : List String, ks.Nodup →
    ((ks.flatMap fun k' => (sortStrsL (valsOf p k')).map fun v => (k', v)).filter
        fun kv => kv.1 == k)
      = if k ∈ ks then (sortStrsL (valsOf p k)).map fun v => (k, v) else []
  | [], _ => by simp
  | k' :: ks, hnd => by
    rw [List.flatMap_cons, List.filter_append, filter_groups p k ks hnd.of_cons]
    have hgrp : (((sortStrsL (valsOf p k')).map fun v => (k', v)).filter
        fun kv => kv.1 == k)
        = if k' = k then (sortStrsL (valsOf p k')).map fun v => (k', v) else [] := by
      by_cases hkk : k' = k
      · rw [if_pos hkk, List.filter_eq_self]
        intro kv hkv
        rcases List.mem_map.mp hkv with ⟨v, _, hvx⟩
        simp [← hvx, hkk]
      · rw [if_neg hkk, List.filter_eq_nil_iff]
        intro kv hkv
        rcases List.mem_map.mp hkv with ⟨v, _, hvx⟩
        simp [← hvx, hkk]
    rw [hgrp]
    by_cases hkk : k' = k
    · have hnotin : k ∉ ks := hkk ▸ (List.nodup_cons.mp hnd).1
      rw [if_pos hkk, if_neg hnotin, if_pos (hkk ▸ List.mem_cons_self k' ks),
        hkk, List.append_nil]
    · have hkk' : ¬ k = k' := fun e => hkk e.symm
      by_cases h2 : k ∈ ks
      · rw [if_neg hkk, if_pos h2, if_pos (List.mem_cons_of_mem k' h2),
          List.nil_append]
      · rw [if_neg hkk, if_neg h2, if_neg (by simp [hkk', h2]),
          List.nil_append]

theorem sKeys_flatGroups (p : List (String × String)) :
    sKeys (flatGroups p) = sKeys p := by
  refine List.eq_of_perm_of_sorted
    ((List.perm_ext_iff_of_nodup (sKeys_nodup _) (sKeys_nodup _)).mpr ?_)
    (sortStrsL_sorted _) (sortStrsL_sorted _)
  intro k
  rw [mem_sKeys, mem_sKeys]
  constructor
  · intro hk
    rcases List.mem_map.mp hk with ⟨kv, hkv, rfl⟩
    exact List.mem_map.mpr ⟨kv, (flatGroups_perm p).subset hkv, rfl⟩
  · intro hk
    rcases List.mem_map.mp hk with ⟨kv, hkv, rfl⟩
    exact List.mem_map.mpr ⟨kv, (flatGroups_perm p).symm.subset hkv, rfl⟩

/-- Rebuilding the rebuilt query changes nothing: the grouped, key- and
value-sorted pair list is a fixed point of `flatGroups`. -/
theorem flatGroups_idem (p : List (String × String)) :
    flatGroups (flatGroups p) = flatGroups p := by
  have hv : ∀ k ∈ sKeys p, valsOf (flatGroups p) k = sortStrsL (valsOf p k) := by
    intro k hk
    calc valsOf (flatGroups p) k
        = ((((sKeys p).flatMap
            fun k' => (sortStrsL (valsOf p k')).map fun v => (k', v)).filter
              fun kv => kv.1 == k).map Prod.snd) := rfl
      _ = ((sortStrsL (valsOf p k)).map fun v => (k, v)).map Prod.snd := by
          rw [filter_groups p k (sKeys p) (sKeys_nodup p), if_pos hk]
      _ = sortStrsL (valsOf p k) := by
          rw [List.map_map]
          simp
  calc flatGroups (flatGroups p)
      = (sKeys (flatGroups p)).flatMap
          (fun k => (sortStrsL (valsOf (flatGroups p) k)).map fun v => (k, v)) := rfl
    _ = (sKeys p).flatMap
          (fun k => (sortStrsL (valsOf (flatGroups p) k)).map fun v => (k, v)) := by
        rw [sKeys_flatGroups]
    _ = (sKeys p).flatMap
          (fun k => (sortStrsL (valsOf p k)).map fun v => (k, v)) :=
        List.flatMap_congr fun k hk => by
          rw [hv k hk, sortStrsL_of_sorted (sortStrsL_sorted _)]
    _ = flatGroups p := rfl

/-! ### C5 groundwork: character classes of rendered URLs -/

theorem ne_of_classes {f : Char → Bool} {c x : Char}
    (hc : f c = true) (hx : f x = false) : c ≠ x := by
  intro e
  rw [e, hx] at hc
  cases hc

theorem safeCh_alwaysSafe {c : Char} (h : safeCh c = true) :
    alwaysSafeCh c = true := by
  simp only [safeCh, Bool.or_eq_true, decide_eq_true_eq] at h
  simp only [alwaysSafeCh, Bool.or_eq_true, decide_eq_true_eq]
  tauto

theorem hostCh_lt128 {c : Char} (h : hostCh c = true) : c.toNat < 128 := by
  simp only [hostCh, isAlnumCh, isAsciiAlphaCh, isDigitCh, Bool.or_eq_true,
    decide_eq_true_eq] at h
  rcases h with (((h | h) | h) | h)
  · omega
  · omega
  · omega
  · subst h
    decide

theorem safeCh_lt128 {c : Char} (h : safeCh c = true) : c.toNat < 128 := by
  simp only [safeCh, isAlnumCh, isAsciiAlphaCh, isDigitCh, Bool.or_eq_true,
    decide_eq_true_eq] at h
  rcases h with ((((((h | h) | h) | h) | h) | h) | h)
  · omega
  · omega
  · omega
  all_goals subst h
  all_goals decide

/-- The well-formedness predicate, unfolded to its propositional content. -/
theorem wfUrl_iff (w : SimpleUrl) : wfUrl w = true ↔
    (w.hostLabels ≠ [] ∧
     (∀ l ∈ w.hostLabels, l ≠ [] ∧ l.length < 64 ∧ ∀ c ∈ l, hostCh c = true) ∧
     (∀ p ∈ w.segs, p ≠ [] ∧ ∀ c ∈ p, safeCh c = true) ∧
     (∀ kv ∈ w.query, kv.1.data ≠ [] ∧ kv.2.data ≠ [] ∧
       (∀ c ∈ kv.1.data, safeCh c = true) ∧ (∀ c ∈ kv.2.data, safeCh c = true)) ∧
     (renderUrl w).length ≤ 2000) := by
  simp only [wfUrl, Bool.and_eq_true, List.all_eq_true, Bool.not_eq_true',
    List.isEmpty_eq_false, decide_eq_true_eq, ne_eq]
  constructor
  · rintro ⟨⟨⟨⟨hne, hl⟩, hs⟩, hq⟩, hlen⟩
    exact ⟨hne, fun l hl2 => ⟨(hl l hl2).1.1, (hl l hl2).1.2, (hl l hl2).2⟩,
      hs, fun kv hkv => ⟨((hq kv hkv).1.1).1, ((hq kv hkv).1.1).2,
        ((hq kv hkv).1.2), (hq kv hkv).2⟩, hlen⟩
  · rintro ⟨hne, hl, hs, hq, hlen⟩
    exact ⟨⟨⟨⟨hne, fun l hl2 => ⟨⟨(hl l hl2).1, (hl l hl2).2.1⟩, (hl l hl2).2.2⟩⟩,
      hs⟩, fun kv hkv => ⟨⟨⟨(hq kv hkv).1, (hq kv hkv).2.1⟩, (hq kv hkv).2.2.1⟩,
        (hq kv hkv).2.2.2⟩⟩, hlen⟩

theorem interSep_chars (sep : List Char) (parts : List (List Char))
    (f : Char → Bool) (h : ∀ p ∈ parts, ∀ c ∈ p, f c = true) :
    ∀ x ∈ interSep sep parts, x ∈ sep ∨ f x = true := by
  intro x hx
  rcases interSep_mem sep parts x hx with h1 | ⟨p, hp, hxp⟩
  · exact Or.inl h1
  · exact Or.inr (h p hp x hxp)

theorem renderQueryL_chars (q : List (String × String))
    (h : ∀ kv ∈ q, (∀ c ∈ kv.1.data, safeCh c = true)
      ∧ (∀ c ∈ kv.2.data, safeCh c = true)) :
    ∀ x ∈ renderQueryL q, x = '&' ∨ x = '=' ∨ safeCh x = true := by
  intro x hx
  rcases interSep_mem ['&'] _ x hx with h1 | ⟨p, hp, hxp⟩
  · simp only [List.mem_singleton] at h1
    exact Or.inl h1
  · rcases List.mem_map.mp hp with ⟨kv, hkv, rfl⟩
    rcases List.mem_append.mp hxp with hc | hc
    · exact Or.inr (Or.inr ((h kv hkv).1 x hc))
    · rcases List.mem_cons.mp hc with hc | hc
      · exact Or.inr (Or.inl hc)
      · exact Or.inr (Or.inr ((h kv hkv).2 x hc))

/-! ### C5 groundwork: path cleaning structure -/

theorem mem_dedupAdj : ∀ (l : List (List Char)) (x : List Char),
    x ∈ dedupAdj l → x ∈ l
  | [], _, h => h
  | [a], _, h => h
  | a :: b :: t, x, h => by
    rw [dedupAdj] at h
    split_ifs at h with hab
    · exact List.mem_cons_of_mem a (mem_dedupAdj (b :: t) x h)
    · rcases List.mem_cons.mp h with h | h
      · exact h ▸ List.mem_cons_self a _
      · exact List.mem_cons_of_mem a (mem_dedupAdj (b :: t) x h)

theorem dedupAdj_sublist : ∀ l : List (List Char), List.Sublist (dedupAdj l) l
  | [] => List.Sublist.refl []
  | [a] => List.Sublist.refl [a]
  | a :: b :: t => by
    rw [dedupAdj]
    split_ifs with hab
    · exact (dedupAdj_sublist (b :: t)).cons a
    · exact (dedupAdj_sublist (b :: t)).cons₂ a

theorem truncDeep_sublist (l : List (List Char)) :
    List.Sublist (truncDeep l) l := by
  rw [truncDeep]
  split_ifs with h
  · exact List.take_sublist 5 l
  · exact List.Sublist.refl l

theorem dedupAdj_head : ∀ (t : List (List Char)) (b : List Char),
    ∃ u, dedupAdj (b :: t) = b :: u
  | [], b => ⟨[], rfl⟩
  | c :: t2, b => by
    rw [dedupAdj]
    split_ifs with h
    · rcases dedupAdj_head t2 c with ⟨u, hu⟩
      exact ⟨u, by rw [hu, h]⟩
    · exact ⟨dedupAdj (c :: t2), rfl⟩

theorem dedupAdj_chain : ∀ l : List (List Char),
    (dedupAdj l).Chain' (fun a b => a ≠ b)
  | [] => List.chain'_nil
  | [a] => List.chain'_singleton a
  | a :: b :: t => by
    rw [dedupAdj]
    split_ifs with hab
    · exact dedupAdj_chain (b :: t)
    · rcases dedupAdj_head t b with ⟨u, hu⟩
      rw [hu]
      exact List.chain'_cons.mpr ⟨hab, hu ▸ dedupAdj_chain (b :: t)⟩

theorem dedupAdj_of_chain : ∀ l : List (List Char),
    l.Chain' (fun a b => a ≠ b) → dedupAdj l = l
  | [], _ => rfl
  | [a], _ => rfl
  | a :: b :: t, h => by
    rw [dedupAdj, if_neg (List.chain'_cons.mp h).1,
      dedupAdj_of_chain (b :: t) (List.chain'_cons.mp h).2]

theorem truncDeep_chain {l : List (List Char)}
    (h : l.Chain' (fun a b => a ≠ b)) :
    (truncDeep l).Chain' (fun a b => a ≠ b) := by
  rw [truncDeep]
  split_ifs with hc
  · exact h.take 5
  · exact h

theorem truncDeep_idem (l : List (List Char)) :
    truncDeep (truncDeep l) = truncDeep l := by
  by_cases h : l.length > 10
      ∧ ¬ importantPathWords.any (fun w => strHas ⟨interSep ['/'] l⟩ w)
  · have h1 : truncDeep l = l.take 5 := by rw [truncDeep, if_pos h]
    rw [h1, truncDeep]
    rw [if_neg]
    intro hc
    have h2 : (l.take 5).length ≤ 5 := by
      rw [List.length_take]
      omega
    omega
  · have h1 : truncDeep l = l := by rw [truncDeep, if_neg h]
    rw [h1, h1]

/-- `nfUrl` is a projection: normalizing the normal form changes nothing. -/
theorem nfUrl_idem (w : SimpleUrl) : nfUrl (nfUrl w) = nfUrl w := by
  have hsegs : truncDeep (dedupAdj (truncDeep (dedupAdj w.segs)))
      = truncDeep (dedupAdj w.segs) := by
    rw [dedupAdj_of_chain _ (truncDeep_chain (dedupAdj_chain w.segs)),
      truncDeep_idem]
  have hq : ((flatGroups (w.query.filter
        fun kv => !(trackingKeys.contains kv.1))).filter
      fun kv => !(trackingKeys.contains kv.1))
      = flatGroups (w.query.filter fun kv => !(trackingKeys.contains kv.1)) := by
    apply List.filter_eq_self.mpr
    intro kv hkv
    have hmem : kv ∈ w.query.filter fun kv => !(trackingKeys.contains kv.1) :=
      (flatGroups_perm _).subset hkv
    exact (List.mem_filter.mp hmem).2
  simp only [nfUrl]
  congr 1
  rw [hq, flatGroups_idem]

/-! ### C5 groundwork: query round trip and component lengths -/

theorem splitOnCh_cons_self (c : Char) (l : List Char) :
    splitOnCh c (c :: l) = [] :: splitOnCh c l := by
  rw [splitOnCh]
  rcases h : splitOnCh c l with _ | ⟨x, t⟩
  · exact absurd h (splitOnCh_ne_nil c l)
  · simp

theorem renderQueryL_ne_nil (q : List (String × String)) (hq : q ≠ []) :
    renderQueryL q ≠ [] := by
  apply interSep_ne_nil
  · simpa using hq
  · intro p hp
    rcases List.mem_map.mp hp with ⟨kv, _, rfl⟩
    simp

theorem filterMap_eq_self_of {α : Type} (f : α → Option α) :
    ∀ l : List α, (∀ a ∈ l, f a = some a) → l.filterMap f = l
  | [], _ => rfl
  | a :: t, h => by
    rw [List.filterMap_cons, h a (List.mem_cons_self a t),
      filterMap_eq_self_of f t fun b hb => h b (List.mem_cons_of_mem a hb)]

/-- Parsing a rendered query over the unreserved alphabet recovers the
original pair list. -/
theorem parseQsl_render (q : List (String × String))
    (h : ∀ kv ∈ q, kv.1.data ≠ [] ∧ kv.2.data ≠ [] ∧
      (∀ c ∈ kv.1.data, safeCh c = true) ∧ (∀ c ∈ kv.2.data, safeCh c = true)) :
    parseQsl ⟨renderQueryL q⟩ = q := by
  cases q with
  | nil => rfl
  | cons kv0 t =>
    have hsplit : splitOnCh '&' (renderQueryL (kv0 :: t))
        = (kv0 :: t).map fun kv => kv.1.data ++ '=' :: kv.2.data := by
      apply splitOnCh_inter
      · simp
      · intro p hp
        rcases List.mem_map.mp hp with ⟨kv, hkv, rfl⟩
        intro hc
        rcases List.mem_append.mp hc with hc | hc
        · exact absurd ((h kv hkv).2.2.1 '&' hc) (by decide)
        · rcases List.mem_cons.mp hc with hc | hc
          · exact absurd hc (by decide)
          · exact absurd ((h kv hkv).2.2.2 '&' hc) (by decide)
    show (splitOnCh '&' (renderQueryL (kv0 :: t))).filterMap _ = kv0 :: t
    rw [hsplit, List.filterMap_map]
    apply filterMap_eq_self_of
    intro kv hkv
    have hk := h kv hkv
    have hne : ¬ (kv.1.data ++ '=' :: kv.2.data).isEmpty = true := by
      simp
    have heq : '=' ∉ kv.1.data := fun hc =>
      absurd (hk.2.2.1 '=' hc) (by decide)
    show (if (kv.1.data ++ '=' :: kv.2.data).isEmpty then none else _) = some kv
    rw [if_neg hne, breakAtCh_append '=' kv.1.data kv.2.data heq]
    have hv : ¬ kv.2.data.isEmpty = true := by
      simp [hk.2.1]
    show (if kv.2.data.isEmpty = true then none
      else some (unquotePlus ⟨kv.1.data⟩, unquotePlus ⟨kv.2.data⟩)) = some kv
    rw [if_neg hv]
    have hu1 : unquotePlus ⟨kv.1.data⟩ = kv.1 :=
      unquotePlus_id kv.1
        ⟨fun hc => absurd (hk.2.2.1 '%' hc) (by decide),
         fun hc => absurd (hk.2.2.1 '+' hc) (by decide)⟩
    have hu2 : unquotePlus ⟨kv.2.data⟩ = kv.2 :=
      unquotePlus_id kv.2
        ⟨fun hc => absurd (hk.2.2.2 '%' hc) (by decide),
         fun hc => absurd (hk.2.2.2 '+' hc) (by decide)⟩
    rw [hu1, hu2]

theorem interSep_len_cons (sep : List Char) (a : List Char)
    (l : List (List Char)) :
    (interSep sep l).length ≤ (interSep sep (a :: l)).length := by
  cases l with
  | nil => exact Nat.zero_le _
  | cons y t =>
    show (interSep sep (y :: t)).length ≤ (a ++ sep ++ interSep sep (y :: t)).length
    simp only [List.length_append]
    omega

theorem interSep_len_mono (sep : List Char) {p1 p2 : List (List Char)}
    (h : List.Sublist p1 p2) :
    (interSep sep p1).length ≤ (interSep sep p2).length := by
  induction h with
  | slnil => exact Nat.le_refl 0
  | cons a h2 ih => exact ih.trans (interSep_len_cons sep a _)
  | @cons₂ l1 l2 a h2 ih =>
    cases l1 with
    | nil =>
      cases l2 with
      | nil => exact Nat.le_refl _
      | cons c t2 =>
        show a.length ≤ (a ++ sep ++ interSep sep (c :: t2)).length
        simp only [List.length_append]
        omega
    | cons b t1 =>
      cases l2 with
      | nil => exact absurd (List.sublist_nil.mp h2) (by simp)
      | cons c t2 =>
        show (a ++ sep ++ interSep sep (b :: t1)).length
          ≤ (a ++ sep ++ interSep sep (c :: t2)).length
        simp only [List.length_append]
        omega

theorem interSep_len_eq (sep : List Char) :
    ∀ parts : List (List Char), parts ≠ [] →
      (interSep sep parts).length + sep.length
        = (parts.map fun p => p.length + sep.length).sum
  | [], h => absurd rfl h
  | [x], _ => by simp [interSep]
  | x :: y :: t, _ => by
    have ih := interSep_len_eq sep (y :: t) (by simp)
    show (x ++ sep ++ interSep sep (y :: t)).length + sep.length = _
    simp only [List.length_append, List.map_cons, List.sum_cons] at *
    omega

theorem interSep_len_perm (sep : List Char) {p1 p2 : List (List Char)}
    (h : List.Perm p1 p2) :
    (interSep sep p1).length = (interSep sep p2).length := by
  by_cases h1 : p1 = []
  · subst h1
    rw [h.nil_eq.symm]
  · have h2 : p2 ≠ [] := by
      intro e
      subst e
      exact h1 h.eq_nil
    have hs : ((p1.map fun p => p.length + sep.length).sum)
        = ((p2.map fun p => p.length + sep.length).sum) :=
      (h.map _).sum_eq
    have e1 := interSep_len_eq sep p1 h1
    have e2 := interSep_len_eq sep p2 h2
    omega

theorem interSep_getLast (sep : List Char) :
    ∀ (parts : List (List Char)) (p : List Char), parts.getLast? = some p →
      (∀ q ∈ parts, q ≠ []) →
      (interSep sep parts).getLast? = p.getLast?
  | [], p, h, _ => by cases h
  | [x], p, h, _ => by
    simp only [List.getLast?_singleton, Option.some.injEq] at h
    subst h
    rfl
  | x :: y :: t, p, h, hq => by
    have h2 : (y :: t).getLast? = some p := by
      rw [← h, List.getLast?_cons_cons]
    have hne : interSep sep (y :: t) ≠ [] :=
      interSep_ne_nil sep (y :: t) (by simp)
        fun q hqq => hq q (List.mem_cons_of_mem x hqq)
    show ((x ++ sep) ++ interSep sep (y :: t)).getLast? = p.getLast?
    rw [List.getLast?_append_of_ne_nil _ hne,
      interSep_getLast sep (y :: t) p h2
        fun q hqq => hq q (List.mem_cons_of_mem x hqq)]

/-! ### C5 groundwork: rendered length, well-formedness preservation -/

theorem renderUrl_len (w : SimpleUrl) :
    (renderUrl w).length
      = (schemeStr w.secure).data.length + 3
        + (interSep ['.'] w.hostLabels).length
        + 1 + (interSep ['/'] w.segs).length
        + (if w.query.isEmpty then ([] : List Char)
           else '?' :: renderQueryL w.query).length := by
  have e : (renderUrl w).data
      = (schemeStr w.secure).data
        ++ ':' :: '/' :: '/' :: (interSep ['.'] w.hostLabels
          ++ '/' :: (interSep ['/'] w.segs
            ++ (if w.query.isEmpty then [] else '?' :: renderQueryL w.query))) := by
    simp [renderUrl]
  have hlen : (renderUrl w).length = (renderUrl w).data.length := rfl
  rw [hlen, e]
  simp only [List.length_append, List.length_cons]
  omega

theorem renderUrl_nf_len (w : SimpleUrl) :
    (renderUrl (nfUrl w)).length ≤ (renderUrl w).length := by
  have hI : (interSep ['/'] (truncDeep (dedupAdj w.segs))).length
      ≤ (interSep ['/'] w.segs).length :=
    interSep_len_mono ['/'] ((truncDeep_sublist _).trans (dedupAdj_sublist _))
  have hQ : (if (flatGroups (w.query.filter
          fun kv => !(trackingKeys.contains kv.1))).isEmpty then ([] : List Char)
        else '?' :: renderQueryL (flatGroups (w.query.filter
          fun kv => !(trackingKeys.contains kv.1)))).length
      ≤ (if w.query.isEmpty then ([] : List Char)
        else '?' :: renderQueryL w.query).length := by
    by_cases hfg : (flatGroups (w.query.filter
        fun kv => !(trackingKeys.contains kv.1))).isEmpty = true
    · rw [if_pos hfg]
      exact Nat.zero_le _
    · have hqf : w.query ≠ [] := by
        intro e
        apply hfg
        rw [e]
        rfl
      rw [if_neg hfg, if_neg (by simp [hqf])]
      have hperm : (renderQueryL (flatGroups (w.query.filter
          fun kv => !(trackingKeys.contains kv.1)))).length
          = (renderQueryL (w.query.filter
            fun kv => !(trackingKeys.contains kv.1))).length :=
        interSep_len_perm ['&'] ((flatGroups_perm _).map _)
      have hsub : (renderQueryL (w.query.filter
          fun kv => !(trackingKeys.contains kv.1))).length
          ≤ (renderQueryL w.query).length :=
        interSep_len_mono ['&'] ((List.filter_sublist _).map _)
      simp only [List.length_cons]
      omega
  have e1 := renderUrl_len w
  have e2 : (renderUrl (nfUrl w)).length
      = (schemeStr w.secure).data.length + 3
        + (interSep ['.'] w.hostLabels).length
        + 1 + (interSep ['/'] (truncDeep (dedupAdj w.segs))).length
        + (if (flatGroups (w.query.filter
            fun kv => !(trackingKeys.contains kv.1))).isEmpty then ([] : List Char)
          else '?' :: renderQueryL (flatGroups (w.query.filter
            fun kv => !(trackingKeys.contains kv.1)))).length :=
    renderUrl_len (nfUrl w)
  omega

/-- `normalize_url`'s canonical form is itself well-formed. -/
theorem wfUrl_nf (w : SimpleUrl) (h : wfUrl w = true) :
    wfUrl (nfUrl w) = true := by
  obtain ⟨h1, h2, h3, h4, h5⟩ := (wfUrl_iff w).mp h
  apply (wfUrl_iff (nfUrl w)).mpr
  refine ⟨h1, h2, ?_, ?_, ?_⟩
  · intro p hp
    exact h3 p (((truncDeep_sublist _).trans (dedupAdj_sublist _)).subset hp)
  · intro kv hkv
    exact h4 kv ((List.filter_sublist _).subset ((flatGroups_perm _).subset hkv))
  · exact (renderUrl_nf_len w).trans h5

/-- The network location of a rendered `SimpleUrl` passes the `idna`
codec unchanged. -/
theorem idna_host (labels : List (List Char)) (hne : labels ≠ [])
    (hl : ∀ l ∈ labels, l ≠ [] ∧ l.length < 64 ∧ ∀ c ∈ l, hostCh c = true) :
    idnaAsciiEncode ⟨interSep ['.'] labels⟩ = some ⟨interSep ['.'] labels⟩ := by
  have hnn : interSep ['.'] labels ≠ [] :=
    interSep_ne_nil _ _ hne fun p hp => (hl p hp).1
  have hs : (⟨interSep ['.'] labels⟩ : String) ≠ "" := by
    intro e
    exact hnn (congrArg String.data e)
  have hascii : (interSep ['.'] labels).all (fun c => decide (c.toNat < 128)) = true := by
    rw [List.all_eq_true]
    intro c hc
    rcases interSep_chars ['.'] labels hostCh (fun p hp => (hl p hp).2.2) c hc
      with h1 | h1
    · simp only [List.mem_singleton] at h1
      subst h1
      decide
    · exact decide_eq_true (hostCh_lt128 h1)
  have hsplit : splitOnCh '.' (interSep ['.'] labels) = labels :=
    splitOnCh_inter '.' labels hne fun p hp hc =>
      absurd ((hl p hp).2.2 '.' hc) (by decide)
  obtain ⟨a, ha⟩ : ∃ a, labels.getLast? = some a := by
    cases hg : labels.getLast? with
    | none => exact absurd (List.getLast?_eq_none_iff.mp hg) hne
    | some a => exact ⟨a, rfl⟩
  have hmem := List.mem_of_mem_getLast? ha
  simp only [idnaAsciiEncode, if_neg hs, hascii, if_pos, hsplit]
  rw [if_pos]
  rw [Bool.and_eq_true]
  constructor
  · rw [List.all_eq_true]
    intro l hld
    have hli := hl l (List.dropLast_subset labels hld)
    exact decide_eq_true ⟨List.length_pos.mpr hli.1, hli.2.1⟩
  · have : labels.getLastD [] = a := by
      simp [List.getLastD_eq_getLast?, ha]
    rw [this]
    exact decide_eq_true (hl a hmem).2.1

/-- Reassembly of an absolute parse result with empty params and
fragment. -/
theorem unparse_shape (sc : String) (host pathI qs : List Char)
    (hsc : sc ≠ "") (hhost : host ≠ []) :
    pyUrlunparse ⟨sc, ⟨host⟩, ⟨'/' :: pathI⟩, "", ⟨qs⟩, ""⟩
      = ⟨sc.data ++ ':' :: '/' :: '/' :: (host ++ '/' :: pathI
          ++ (if qs.isEmpty then [] else '?' :: qs))⟩ := by
  have hnet : (⟨host⟩ : String) ≠ "" := by
    intro e
    exact hhost (congrArg String.data e)
  have hd : ∀ a b : String, (a ++ b).data = a.data ++ b.data := fun a b => rfl
  have hd2 : ("//" : String).data = ['/', '/'] := rfl
  have hd3 : (":" : String).data = [':'] := rfl
  have hd4 : ("?" : String).data = ['?'] := rfl
  have hd5 : ("/" : String).data = ['/'] := rfl
  by_cases hqs : qs = []
  · subst hqs
    apply String.ext
    simp [pyUrlunparse, hnet, hsc, hd, hd2, hd3, hd4, hd5]
  · have hq2 : (⟨qs⟩ : String) ≠ "" := by
      intro e
      exact hqs (congrArg String.data e)
    apply String.ext
    simp [pyUrlunparse, hnet, hsc, hq2, hqs, hd, hd2, hd3, hd4, hd5]

/-! ### C5 groundwork: parsing a rendered URL -/

theorem splitSchemeL_render (b : Bool) (rest : List Char) :
    splitSchemeL ((schemeStr b).data ++ ':' :: rest) = (schemeStr b, rest) := by
  have hcolon : ':' ∉ (schemeStr b).data := by cases b <;> decide
  simp only [splitSchemeL, breakAtCh_append ':' (schemeStr b).data rest hcolon]
  cases b <;> rfl

/-- `urlsplit` of a rendered `SimpleUrl` recovers scheme, host, path and
query, with empty params and fragment. -/
theorem split_render (w : SimpleUrl)
    (hhost : ∀ x ∈ interSep ['.'] w.hostLabels, x = '.' ∨ hostCh x = true)
    (hpath : ∀ x ∈ interSep ['/'] w.segs, x = '/' ∨ safeCh x = true)
    (hq : ∀ x ∈ renderQueryL w.query, x = '&' ∨ x = '=' ∨ safeCh x = true) :
    pyUrlsplit (renderUrl w)
      = ⟨schemeStr w.secure, ⟨interSep ['.'] w.hostLabels⟩,
         ⟨'/' :: interSep ['/'] w.segs⟩, "",
         ⟨if w.query.isEmpty then [] else renderQueryL w.query⟩, ""⟩ := by
  have hchars : ∀ x ∈ interSep ['.'] w.hostLabels,
      (['/', '?', '#'] : List Char).contains x = false := by
    intro x hx
    rcases hhost x hx with h1 | h1
    · subst h1
      decide
    · have n1 : x ≠ '/' := ne_of_classes h1 (by decide)
      have n2 : x ≠ '?' := ne_of_classes h1 (by decide)
      have n3 : x ≠ '#' := ne_of_classes h1 (by decide)
      simp [n1, n2, n3]
  by_cases hqe : w.query.isEmpty = true
  · have e : (renderUrl w).data
        = (schemeStr w.secure).data
          ++ ':' :: ('/' :: '/' :: (interSep ['.'] w.hostLabels
            ++ '/' :: interSep ['/'] w.segs)) := by
      simp [renderUrl, hqe]
    have hspan : spanNot ['/', '?', '#']
        (interSep ['.'] w.hostLabels ++ '/' :: interSep ['/'] w.segs)
        = (interSep ['.'] w.hostLabels, '/' :: interSep ['/'] w.segs) :=
      spanNot_append _ _ _ '/' hchars (by decide)
    have hno_hash : '#' ∉ '/' :: interSep ['/'] w.segs := by
      intro hmem
      rcases List.mem_cons.mp hmem with h1 | h1
      · exact absurd h1 (by decide)
      · rcases hpath '#' h1 with h2 | h2
        · exact absurd h2 (by decide)
        · exact absurd h2 (by decide)
    have hno_q : '?' ∉ '/' :: interSep ['/'] w.segs := by
      intro hmem
      rcases List.mem_cons.mp hmem with h1 | h1
      · exact absurd h1 (by decide)
      · rcases hpath '?' h1 with h2 | h2
        · exact absurd h2 (by decide)
        · exact absurd h2 (by decide)
    simp only [pyUrlsplit, e, splitSchemeL_render]
    have hpre : (['/', '/'] : List Char).isPrefixOf
        ('/' :: '/' :: (interSep ['.'] w.hostLabels
          ++ '/' :: interSep ['/'] w.segs)) = true := by
      simp [List.isPrefixOf]
    simp only [hpre, if_true, List.drop_succ_cons, List.drop_zero, hspan,
      breakAtCh_not_mem '#' _ hno_hash, breakAtCh_not_mem '?' _ hno_q,
      Option.getD_none, if_pos hqe]
  · have e : (renderUrl w).data
        = (schemeStr w.secure).data
          ++ ':' :: ('/' :: '/' :: (interSep ['.'] w.hostLabels
            ++ '/' :: (interSep ['/'] w.segs ++ '?' :: renderQueryL w.query))) := by
      simp [renderUrl, hqe]
    have hspan : spanNot ['/', '?', '#']
        (interSep ['.'] w.hostLabels
          ++ '/' :: (interSep ['/'] w.segs ++ '?' :: renderQueryL w.query))
        = (interSep ['.'] w.hostLabels,
           '/' :: (interSep ['/'] w.segs ++ '?' :: renderQueryL w.query)) :=
      spanNot_append _ _ _ '/' hchars (by decide)
    have hno_hash : '#' ∉ '/' :: (interSep ['/'] w.segs
        ++ '?' :: renderQueryL w.query) := by
      intro hmem
      rcases List.mem_cons.mp hmem with h1 | h1
      · exact absurd h1 (by decide)
      · rcases List.mem_append.mp h1 with h2 | h2
        · rcases hpath '#' h2 with h3 | h3
          · exact absurd h3 (by decide)
          · exact absurd h3 (by decide)
        · rcases List.mem_cons.mp h2 with h3 | h3
          · exact absurd h3 (by decide)
          · rcases hq '#' h3 with h4 | h4 | h4
            · exact absurd h4 (by decide)
            · exact absurd h4 (by decide)
            · exact absurd h4 (by decide)
    have hno_q : '?' ∉ '/' :: interSep ['/'] w.segs := by
      intro hmem
      rcases List.mem_cons.mp hmem with h1 | h1
      · exact absurd h1 (by decide)
      · rcases hpath '?' h1 with h2 | h2
        · exact absurd h2 (by decide)
        · exact absurd h2 (by decide)
    have hqsplit : breakAtCh '?' ('/' :: (interSep ['/'] w.segs
        ++ '?' :: renderQueryL w.query))
        = ('/' :: interSep ['/'] w.segs, some (renderQueryL w.query)) :=
      breakAtCh_append '?' ('/' :: interSep ['/'] w.segs) _ hno_q
    simp only [pyUrlsplit, e, splitSchemeL_render]
    have hpre : (['/', '/'] : List Char).isPrefixOf
        ('/' :: '/' :: (interSep ['.'] w.hostLabels
          ++ '/' :: (interSep ['/'] w.segs ++ '?' :: renderQueryL w.query)))
        = true := by
      simp [List.isPrefixOf]
    simp only [hpre, if_true, List.drop_succ_cons, List.drop_zero, hspan,
      breakAtCh_not_mem '#' _ hno_hash, hqsplit, Option.getD_some,
      Option.getD_none, if_neg hqe]

theorem badUrl_not_class {c : Char} (hc : hostCh c = true ∨ safeCh c = true) :
    badUrlChars.contains c = false := by
  rw [Bool.eq_false_iff]
  intro hmem2
  have hmem : c ∈ badUrlChars := by simpa using hmem2
  simp only [badUrlChars, List.mem_cons, List.not_mem_nil, or_false] at hmem
  rcases hmem with rfl | rfl | rfl | rfl | rfl | rfl | rfl | rfl <;>
    rcases hc with h | h <;> exact absurd h (by decide)

theorem stripBadChars_id (l : List Char)
    (h : ∀ c ∈ l, badUrlChars.contains c = false) : stripBadChars l = l := by
  apply List.filter_eq_self.mpr
  intro c hc
  show (!(badUrlChars.contains c)) = true
  rw [h c hc]
  rfl

theorem lowStr_scheme (b : Bool) : lowStr (schemeStr b) = schemeStr b := by
  cases b <;> decide

theorem schemeStr_ne (b : Bool) : schemeStr b ≠ "" := by
  cases b <;> decide

/-- Every character of a rendered well-formed URL is a structural
delimiter or an unreserved host/path character. -/
theorem renderUrl_chars (w : SimpleUrl) (h : wfUrl w = true) :
    ∀ x ∈ (renderUrl w).data,
      x = ':' ∨ x = '/' ∨ x = '?' ∨ x = '&' ∨ x = '=' ∨ x = '.'
        ∨ hostCh x = true ∨ safeCh x = true := by
  obtain ⟨h1, h2, h3, h4, h5⟩ := (wfUrl_iff w).mp h
  have e0 : (renderUrl w).data
      = (schemeStr w.secure).data
        ++ ':' :: '/' :: '/' :: (interSep ['.'] w.hostLabels
          ++ '/' :: (interSep ['/'] w.segs
            ++ (if w.query.isEmpty then [] else '?' :: renderQueryL w.query))) := by
    simp [renderUrl]
  have hsch : ∀ x ∈ (schemeStr w.secure).data, safeCh x = true := by
    cases w.secure <;> decide
  intro x hx
  rw [e0] at hx
  rcases List.mem_append.mp hx with hx | hx
  · exact Or.inr (Or.inr (Or.inr (Or.inr (Or.inr (Or.inr (Or.inr (hsch x hx)))))))
  · rcases List.mem_cons.mp hx with rfl | hx
    · exact Or.inl rfl
    rcases List.mem_cons.mp hx with rfl | hx
    · exact Or.inr (Or.inl rfl)
    rcases List.mem_cons.mp hx with rfl | hx
    · exact Or.inr (Or.inl rfl)
    rcases List.mem_append.mp hx with hx | hx
    · rcases interSep_chars ['.'] _ hostCh (fun p hp => (h2 p hp).2.2) x hx
        with h6 | h6
      · simp only [List.mem_singleton] at h6
        exact Or.inr (Or.inr (Or.inr (Or.inr (Or.inr (Or.inl h6)))))
      · exact Or.inr (Or.inr (Or.inr (Or.inr (Or.inr (Or.inr (Or.inl h6))))))
    rcases List.mem_cons.mp hx with rfl | hx
    · exact Or.inr (Or.inl rfl)
    rcases List.mem_append.mp hx with hx | hx
    · rcases interSep_chars ['/'] _ safeCh (fun p hp => (h3 p hp).2) x hx
        with h6 | h6
      · simp only [List.mem_singleton] at h6
        exact Or.inr (Or.inl h6)
      · exact Or.inr (Or.inr (Or.inr (Or.inr (Or.inr (Or.inr (Or.inr h6))))))
    by_cases hqe : w.query.isEmpty = true
    · rw [if_pos hqe] at hx
      cases hx
    · rw [if_neg hqe] at hx
      rcases List.mem_cons.mp hx with rfl | hx
      · exact Or.inr (Or.inr (Or.inl rfl))
      rcases renderQueryL_chars w.query
          (fun kv hkv => ⟨(h4 kv hkv).2.2.1, (h4 kv hkv).2.2.2⟩) x hx
        with h6 | h6 | h6
      · exact Or.inr (Or.inr (Or.inr (Or.inl h6)))
      · exact Or.inr (Or.inr (Or.inr (Or.inr (Or.inl h6))))
      · exact Or.inr (Or.inr (Or.inr (Or.inr (Or.inr (Or.inr (Or.inr h6))))))

theorem renderUrl_ne (w : SimpleUrl) : renderUrl w ≠ "" := by
  intro hz
  have hd : (renderUrl w).data = [] := congrArg String.data hz
  have e0 : (renderUrl w).data
      = (schemeStr w.secure).data
        ++ ':' :: '/' :: '/' :: (interSep ['.'] w.hostLabels
          ++ '/' :: (interSep ['/'] w.segs
            ++ (if w.query.isEmpty then [] else '?' :: renderQueryL w.query))) := by
    simp [renderUrl]
  rw [e0] at hd
  simp at hd

theorem renderUrl_no_pct (w : SimpleUrl) (h : wfUrl w = true) :
    '%' ∉ (renderUrl w).data := by
  intro hc
  rcases renderUrl_chars w h '%' hc with h6 | h6 | h6 | h6 | h6 | h6 | h6 | h6 <;>
    exact absurd h6 (by decide)

/-- The initial character cleaning of `normalize_url` leaves a rendered
well-formed URL unchanged. -/
theorem clean_render (w : SimpleUrl) (h : wfUrl w = true) :
    removeTri '%' '3' 'E' (removeTri '%' '3' 'C' (removeTri '%' '2' '2'
      (stripBadChars (renderUrl w).data))) = (renderUrl w).data := by
  have hbad : ∀ c ∈ (renderUrl w).data, badUrlChars.contains c = false := by
    intro c hc
    rcases renderUrl_chars w h c hc with rfl | rfl | rfl | rfl | rfl | rfl | h6 | h6
    · decide
    · decide
    · decide
    · decide
    · decide
    · decide
    · exact badUrl_not_class (Or.inl h6)
    · exact badUrl_not_class (Or.inr h6)
  rw [stripBadChars_id _ hbad,
    removeTri_id _ _ _ _ (renderUrl_no_pct w h),
    removeTri_id _ _ _ _ (renderUrl_no_pct w h),
    removeTri_id _ _ _ _ (renderUrl_no_pct w h)]

/-- `urlparse` of a rendered well-formed URL (params split is a no-op). -/
theorem parse_render (w : SimpleUrl) (h : wfUrl w = true) :
    pyUrlparse ⟨(renderUrl w).data⟩
      = ⟨schemeStr w.secure, ⟨interSep ['.'] w.hostLabels⟩,
         ⟨'/' :: interSep ['/'] w.segs⟩, "",
         ⟨if w.query.isEmpty then [] else renderQueryL w.query⟩, ""⟩ := by
  obtain ⟨h1, h2, h3, h4, h5⟩ := (wfUrl_iff w).mp h
  have hpathc : ∀ x ∈ interSep ['/'] w.segs, x = '/' ∨ safeCh x = true := by
    intro x hx
    rcases interSep_chars ['/'] _ safeCh (fun p hp => (h3 p hp).2) x hx
      with h6 | h6
    · exact Or.inl (by simpa using h6)
    · exact Or.inr h6
  have hsplit : pyUrlsplit (renderUrl w)
      = ⟨schemeStr w.secure, ⟨interSep ['.'] w.hostLabels⟩,
         ⟨'/' :: interSep ['/'] w.segs⟩, "",
         ⟨if w.query.isEmpty then [] else renderQueryL w.query⟩, ""⟩ := by
    apply split_render
    · intro x hx
      rcases interSep_chars ['.'] _ hostCh (fun p hp => (h2 p hp).2.2) x hx
        with h6 | h6
      · exact Or.inl (by simpa using h6)
      · exact Or.inr h6
    · exact hpathc
    · exact renderQueryL_chars w.query
        fun kv hkv => ⟨(h4 kv hkv).2.2.1, (h4 kv hkv).2.2.2⟩
  have hsplit2 : pyUrlsplit ⟨(renderUrl w).data⟩
      = ⟨schemeStr w.secure, ⟨interSep ['.'] w.hostLabels⟩,
         ⟨'/' :: interSep ['/'] w.segs⟩, "",
         ⟨if w.query.isEmpty then [] else renderQueryL w.query⟩, ""⟩ := hsplit
  simp only [pyUrlparse, hsplit2]
  rw [if_neg]
  intro hc
  have hm : ';' ∈ '/' :: interSep ['/'] w.segs := by simpa using hc
  rcases List.mem_cons.mp hm with h6 | h6
  · exact absurd h6 (by decide)
  · rcases hpathc ';' h6 with h7 | h7
    · exact absurd h7 (by decide)
    · exact absurd h7 (by decide)

/-- A rendered path never ends in a removable trailing slash. -/
theorem trail_cond (w : SimpleUrl)
    (h3 : ∀ p ∈ w.segs, p ≠ [] ∧ ∀ c ∈ p, safeCh c = true) :
    ¬ (('/' :: interSep ['/'] w.segs).getLast? = some '/'
       ∧ ('/' :: interSep ['/'] w.segs).length > 1) := by
  rintro ⟨hlast, hlen⟩
  cases hsegs : w.segs with
  | nil =>
    rw [hsegs] at hlen
    exact absurd hlen (by decide)
  | cons s0 rest =>
    rw [hsegs] at hlast
    obtain ⟨p, hp⟩ : ∃ p, (s0 :: rest).getLast? = some p := by
      cases hg : (s0 :: rest).getLast? with
      | none => exact absurd (List.getLast?_eq_none_iff.mp hg) (by simp)
      | some p => exact ⟨p, rfl⟩
    have hmem : p ∈ w.segs := hsegs ▸ List.mem_of_mem_getLast? hp
    have hI : (interSep ['/'] (s0 :: rest)).getLast? = p.getLast? :=
      interSep_getLast ['/'] _ p hp fun q hq => (h3 q (hsegs ▸ hq)).1
    have hIne : interSep ['/'] (s0 :: rest) ≠ [] :=
      interSep_ne_nil _ _ (by simp) fun q hq => (h3 q (hsegs ▸ hq)).1
    have hcons : ('/' :: interSep ['/'] (s0 :: rest)).getLast?
        = (interSep ['/'] (s0 :: rest)).getLast? := by
      cases hX : interSep ['/'] (s0 :: rest) with
      | nil => exact absurd hX hIne
      | cons a t => rw [List.getLast?_cons_cons]
    rw [hcons, hI] at hlast
    exact absurd ((h3 p hmem).2 '/' (List.mem_of_mem_getLast? hlast))
      (by decide)

/-- Splitting a rendered path back into nonempty segments recovers the
segment list. -/
theorem nonEmptySegs_render (w : SimpleUrl)
    (h3 : ∀ p ∈ w.segs, p ≠ [] ∧ ∀ c ∈ p, safeCh c = true) :
    nonEmptySegs ('/' :: interSep ['/'] w.segs) = w.segs := by
  cases hsegs : w.segs with
  | nil => rfl
  | cons s0 rest =>
    have hall : ∀ p ∈ s0 :: rest, p ≠ [] ∧ ∀ c ∈ p, safeCh c = true :=
      fun p hp => h3 p (hsegs ▸ hp)
    rw [nonEmptySegs, splitOnCh_cons_self,
      splitOnCh_inter '/' (s0 :: rest) (by simp)
        (fun p hp hc => absurd ((hall p hp).2 '/' hc) (by decide))]
    have hskip : List.filter (fun p : List Char => !p.isEmpty) ([] :: s0 :: rest)
        = List.filter (fun p : List Char => !p.isEmpty) (s0 :: rest) := by
      rw [List.filter_cons]
      simp
    rw [hskip]
    apply List.filter_eq_self.mpr
    intro p hp
    simp [(hall p hp).1]

/-- Percent-quoting with safe `"/%"` is the identity on a cleaned
rendered path. -/
theorem quote_clean (S2 : List (List Char))
    (hS : ∀ p ∈ S2, ∀ c ∈ p, safeCh c = true) :
    pyQuote ⟨'/' :: interSep ['/'] S2⟩ ['/', '%'] = ⟨'/' :: interSep ['/'] S2⟩ := by
  apply pyQuote_id
  intro c hc
  have hc2 : c ∈ '/' :: interSep ['/'] S2 := hc
  rcases List.mem_cons.mp hc2 with rfl | hc3
  · exact ⟨by decide, by decide⟩
  · rcases interSep_chars ['/'] S2 safeCh hS c hc3 with h6 | h6
    · simp only [List.mem_singleton] at h6
      subst h6
      exact ⟨by decide, by decide⟩
    · refine ⟨safeCh_lt128 h6, ?_⟩
      rw [Bool.or_eq_true]
      exact Or.inl (safeCh_alwaysSafe h6)

theorem flatGroups_nil : flatGroups ([] : List (String × String)) = [] := rfl

theorem renderUrl_data (w : SimpleUrl) :
    (renderUrl w).data
      = (schemeStr w.secure).data
        ++ ':' :: '/' :: '/' :: (interSep ['.'] w.hostLabels
          ++ '/' :: (interSep ['/'] w.segs
            ++ (if w.query.isEmpty then [] else '?' :: renderQueryL w.query))) := by
  simp [renderUrl]

set_option maxHeartbeats 2000000 in
theorem normalize_render (w : SimpleUrl) (h : wfUrl w = true) :
    normalize_url (renderUrl w) = renderUrl (nfUrl w) := by
  obtain ⟨h1, h2, h3, h4, h5⟩ := (wfUrl_iff w).mp h
  rw [normalize_url, if_neg (renderUrl_ne w), clean_render w h]
  dsimp only
  rw [parse_render w h]
  dsimp only
  rw [lowStr_scheme, if_neg (schemeStr_ne w.secure)]
  rw [if_neg (show ¬ ((⟨'/' :: interSep ['/'] w.segs⟩ : String) ≠ ""
      ∧ ¬ List.take 1 ('/' :: interSep ['/'] w.segs) = ['/'])
    from fun hc => hc.2 rfl)]
  have hdm : ∀ l : List Char, (⟨l⟩ : String).data = l := fun l => rfl
  simp only [hdm]
  rw [if_neg (show ¬ (('/' :: interSep ['/'] w.segs).getLast? = some '/'
      ∧ (⟨'/' :: interSep ['/'] w.segs⟩ : String).length > 1)
    from trail_cond w h3)]
  rw [nonEmptySegs_render w h3]
  have hcp : (if (⟨'/' :: interSep ['/'] (truncDeep (dedupAdj w.segs))⟩ : String) = ""
        ∨ (⟨'/' :: interSep ['/'] (truncDeep (dedupAdj w.segs))⟩ : String) = "/"
      then ("/" : String)
      else ⟨'/' :: interSep ['/'] (truncDeep (dedupAdj w.segs))⟩)
      = ⟨'/' :: interSep ['/'] (truncDeep (dedupAdj w.segs))⟩ := by
    by_cases hc : (⟨'/' :: interSep ['/'] (truncDeep (dedupAdj w.segs))⟩ : String) = ""
        ∨ (⟨'/' :: interSep ['/'] (truncDeep (dedupAdj w.segs))⟩ : String) = "/"
    · rw [if_pos hc]
      rcases hc with hc | hc
      · exact absurd (congrArg String.data hc) (by simp)
      · exact hc.symm
    · rw [if_neg hc]
  rw [hcp]
  have hS2 : ∀ p ∈ truncDeep (dedupAdj w.segs), ∀ c ∈ p, safeCh c = true :=
    fun p hp => (h3 p (((truncDeep_sublist _).trans (dedupAdj_sublist _)).subset hp)).2
  rw [quote_clean _ hS2, idna_host w.hostLabels h1 h2]
  dsimp only
  have hlen : ¬ ((renderUrl (nfUrl w)).length > 2000) := by
    have := renderUrl_nf_len w
    omega
  by_cases hqe : w.query.isEmpty = true
  · have hqenil : w.query = [] := by simpa using hqe
    rw [if_pos hqe]
    rw [if_neg (show ¬ ((⟨([] : List Char)⟩ : String) ≠ "") from fun hc => hc rfl)]
    have hun : pyUrlunparse ⟨schemeStr w.secure, ⟨interSep ['.'] w.hostLabels⟩,
        ⟨'/' :: interSep ['/'] (truncDeep (dedupAdj w.segs))⟩, "",
        ⟨([] : List Char)⟩, ""⟩
        = renderUrl (nfUrl w) := by
      rw [unparse_shape (schemeStr w.secure) (interSep ['.'] w.hostLabels)
        (interSep ['/'] (truncDeep (dedupAdj w.segs))) []
        (schemeStr_ne w.secure)
        (interSep_ne_nil _ _ h1 fun p hp => (h2 p hp).1)]
      apply String.ext
      have hrd : (renderUrl (nfUrl w)).data
          = (schemeStr w.secure).data
            ++ ':' :: '/' :: '/' :: (interSep ['.'] w.hostLabels
              ++ '/' :: (interSep ['/'] (truncDeep (dedupAdj w.segs))
                ++ (if (flatGroups (List.filter
                      (fun kv => !trackingKeys.contains kv.1) w.query)).isEmpty
                  then []
                  else '?' :: renderQueryL (flatGroups (List.filter
                    (fun kv => !trackingKeys.contains kv.1) w.query))))) :=
        renderUrl_data (nfUrl w)
      rw [hqenil, List.filter_nil, flatGroups_nil] at hrd
      rw [hrd]
      simp
    rw [hun, if_neg hlen]
  · have hqne : w.query ≠ [] := by simpa using hqe
    rw [if_neg hqe]
    rw [if_pos (show (⟨renderQueryL w.query⟩ : String) ≠ "" from
      fun e => renderQueryL_ne_nil w.query hqne (congrArg String.data e))]
    rw [parseQsl_render w.query h4]
    by_cases hqd : List.filter (fun kv => !trackingKeys.contains kv.1) w.query = []
    · rw [if_neg (show ¬ (List.filter (fun kv => !trackingKeys.contains kv.1)
          w.query ≠ []) from fun hc => hc hqd)]
      have hun : pyUrlunparse ⟨schemeStr w.secure, ⟨interSep ['.'] w.hostLabels⟩,
          ⟨'/' :: interSep ['/'] (truncDeep (dedupAdj w.segs))⟩, "", "", ""⟩
          = renderUrl (nfUrl w) := by
        rw [show ("" : String) = ⟨([] : List Char)⟩ from rfl]
        rw [unparse_shape (schemeStr w.secure) (interSep ['.'] w.hostLabels)
          (interSep ['/'] (truncDeep (dedupAdj w.segs))) []
          (schemeStr_ne w.secure)
          (interSep_ne_nil _ _ h1 fun p hp => (h2 p hp).1)]
        apply String.ext
        have hrd : (renderUrl (nfUrl w)).data
            = (schemeStr w.secure).data
              ++ ':' :: '/' :: '/' :: (interSep ['.'] w.hostLabels
                ++ '/' :: (interSep ['/'] (truncDeep (dedupAdj w.segs))
                  ++ (if (flatGroups (List.filter
                        (fun kv => !trackingKeys.contains kv.1) w.query)).isEmpty
                    then []
                    else '?' :: renderQueryL (flatGroups (List.filter
                      (fun kv => !trackingKeys.contains kv.1) w.query))))) :=
          renderUrl_data (nfUrl w)
        rw [hqd, flatGroups_nil] at hrd
        rw [hrd]
        simp
      rw [hun, if_neg hlen]
    · rw [if_pos hqd]
      have hfgne : flatGroups (List.filter (fun kv => !trackingKeys.contains kv.1)
          w.query) ≠ [] := by
        intro e
        have hp := flatGroups_perm (List.filter
          (fun kv => !trackingKeys.contains kv.1) w.query)
        rw [e] at hp
        exact hqd hp.nil_eq.symm
      have hun : pyUrlunparse ⟨schemeStr w.secure, ⟨interSep ['.'] w.hostLabels⟩,
          ⟨'/' :: interSep ['/'] (truncDeep (dedupAdj w.segs))⟩, "",
          rebuildQuery (List.filter (fun kv => !trackingKeys.contains kv.1)
            w.query), ""⟩
          = renderUrl (nfUrl w) := by
        rw [show rebuildQuery (List.filter (fun kv => !trackingKeys.contains kv.1)
            w.query)
          = (⟨renderQueryL (flatGroups (List.filter
              (fun kv => !trackingKeys.contains kv.1) w.query))⟩ : String) from rfl]
        rw [unparse_shape (schemeStr w.secure) (interSep ['.'] w.hostLabels)
          (interSep ['/'] (truncDeep (dedupAdj w.segs)))
          (renderQueryL (flatGroups (List.filter
            (fun kv => !trackingKeys.contains kv.1) w.query)))
          (schemeStr_ne w.secure)
          (interSep_ne_nil _ _ h1 fun p hp => (h2 p hp).1)]
        have hrqne : renderQueryL (flatGroups (List.filter
            (fun kv => !trackingKeys.contains kv.1) w.query)) ≠ [] :=
          renderQueryL_ne_nil _ hfgne
        apply String.ext
        have hrd : (renderUrl (nfUrl w)).data
            = (schemeStr w.secure).data
              ++ ':' :: '/' :: '/' :: (interSep ['.'] w.hostLabels
                ++ '/' :: (interSep ['/'] (truncDeep (dedupAdj w.segs))
                  ++ (if (flatGroups (List.filter
                        (fun kv => !trackingKeys.contains kv.1) w.query)).isEmpty
                    then []
                    else '?' :: renderQueryL (flatGroups (List.filter
                      (fun kv => !trackingKeys.contains kv.1) w.query))))) :=
          renderUrl_data (nfUrl w)
        have hc1 : ¬ ((renderQueryL (flatGroups (List.filter
            (fun kv => !trackingKeys.contains kv.1) w.query))).isEmpty = true) := by
          simp only [Bool.not_eq_true, List.isEmpty_eq_false]
          exact hrqne
        have hc2 : ¬ ((flatGroups (List.filter
            (fun kv => !trackingKeys.contains kv.1) w.query)).isEmpty = true) := by
          simp only [Bool.not_eq_true, List.isEmpty_eq_false]
          exact hfgne
        rw [hrd, if_neg hc2]
        rw [show ((⟨(schemeStr w.secure).data ++ ':' :: '/' :: '/'
            :: (interSep ['.'] w.hostLabels
              ++ '/' :: interSep ['/'] (truncDeep (dedupAdj w.segs))
              ++ (if (renderQueryL (flatGroups (List.filter
                    (fun kv => !trackingKeys.contains kv.1) w.query))).isEmpty
                then []
                else '?' :: renderQueryL (flatGroups (List.filter
                  (fun kv => !trackingKeys.contains kv.1) w.query))))⟩ : String)).data
          = (schemeStr w.secure).data ++ ':' :: '/' :: '/'
            :: (interSep ['.'] w.hostLabels
              ++ '/' :: interSep ['/'] (truncDeep (dedupAdj w.segs))
              ++ (if (renderQueryL (flatGroups (List.filter
                    (fun kv => !trackingKeys.contains kv.1) w.query))).isEmpty
                then []
                else '?' :: renderQueryL (flatGroups (List.filter
                  (fun kv => !trackingKeys.contains kv.1) w.query)))) from rfl]
        rw [if_neg hc1]
        simp
      rw [hun, if_neg hlen]

/-- C5, counterexample.  Idempotence fails on arbitrary URL strings: in
`https://x.edu/p?c=x%26a=1` the value `x%26a=1` is percent-decoded by
`parse_qs` to `x&a=1` and re-emitted verbatim, so the first pass yields
`https://x.edu/p?c=x&a=1`, which the second pass re-parses as two
parameters and reorders to `https://x.edu/p?a=1&c=x`. -/
theorem c5_counterexample :
    normalize_url (normalize_url "https://x.edu/p?c=x%26a=1")
      ≠ normalize_url "https://x.edu/p?c=x%26a=1" := by decide

/-- C5, amended.  On well-formed URLs over the unreserved alphabet
(`wfUrl`: nonempty dot-separated host labels under 64 characters,
nonempty path segments and query keys/values over unreserved characters,
rendering within 2000 characters) `normalize_url` is idempotent, one pass
producing the canonical `nfUrl` form; and the claim's concrete example
holds: fragment and `utm_source` tracking parameter are removed and the
trailing slash is dropped. -/
theorem c5_amended (w : SimpleUrl) (h : wfUrl w = true) :
    normalize_url (normalize_url (renderUrl w)) = normalize_url (renderUrl w)
    ∧ normalize_url "https://x.edu/apply/?utm_source=a&b=2#frag"
      = "https://x.edu/apply?b=2" := by
  constructor
  · rw [normalize_render w h, normalize_render (nfUrl w) (wfUrl_nf w h),
      nfUrl_idem]
  · decide

/-- Witness for `c5_amended` at a concrete well-formed URL
`https://x.edu/a/a?b=2&utm_source=t` (a duplicated segment, a tracking
key and an ordinary parameter). -/
theorem c5_witness :
    wfUrl ⟨true, [['x'], ['e', 'd', 'u']], [['a'], ['a']],
        [("b", "2"), ("utm_source", "t")]⟩ = true
    ∧ (normalize_url (normalize_url (renderUrl ⟨true, [['x'], ['e', 'd', 'u']],
          [['a'], ['a']], [("b", "2"), ("utm_source", "t")]⟩))
        = normalize_url (renderUrl ⟨true, [['x'], ['e', 'd', 'u']],
          [['a'], ['a']], [("b", "2"), ("utm_source", "t")]⟩)
      ∧ normalize_url "https://x.edu/apply/?utm_source=a&b=2#frag"
        = "https://x.edu/apply?b=2") :=
  ⟨by decide, c5_amended ⟨true, [['x'], ['e', 'd', 'u']], [['a'], ['a']],
    [("b", "2"), ("utm_source", "t")]⟩ (by decide)⟩

end Scraper
